import Mathlib

/-!
# Enigma (dorayaki::Enigma) — shallow embedding and verification

Source: `src/enigma.hpp`, `src/enigma.cpp`.

Conventions of the embedding

* A `char` is one byte; it is represented by its byte value, `CChar = Fin 256`.
  Plain `char` is a signed type on the platform of the source (x86-64), so the value of
  the byte `b` is `char_value b` (`b` below 128, `b - 256` from 128 on), and
  `std::less<char>`, the ordering of `std::set<char>`, is `char_lt`: the bytes
  `0x80 … 0xFF` come before the ASCII range.
* `std::size_t` is 64 bit: a `Nat` reduced modulo `SIZE_MOD = 2 ^ 64` wherever the
  source computes in `size_t`.  A signed value converted to `size_t` goes through
  `toSize`; a `size_t` stored into `array_value_type` (`std::int32_t`) goes through
  `toInt32`.
* `std::int32_t` / `ptrdiff_t` values are `Int`.
* A call that can throw (`vector::at`, `array::at`, `optional::value`) or whose
  behaviour is undefined (division by zero, dereferencing an iterator that is out of
  range) returns `Except Fault _`.
* `std::mt19937` + `std::shuffle` belong to the standard library, not to this
  repository: the seeded shuffle is a parameter `shuffle : Nat → List Int → List Int`
  (seed, input vector ↦ shuffled vector).  Results that depend on it assume only
  that it returns a permutation of its input (`ShufflePerm`).
* The template parameter `scramblers_num` is the field `scramblers_num` of the
  machine; no operation changes it.
-/

namespace dorayaki

/-! ## Machine types -/

/-- A `char`, by byte value. -/
abbrev CChar := Fin 256

/-- The integer value of a (signed) `char`: bytes from `0x80` on are negative. -/
def char_value (c : CChar) : Int := if c.val < 128 then (c.val : Int) else (c.val : Int) - 256

/-- The comparison `std::less<char>` of `std::set<char>`: comparison of `char` values. -/
def char_lt (a b : CChar) : Prop := char_value a < char_value b

instance instDecidableCharLt (a b : CChar) : Decidable (char_lt a b) := by
  unfold char_lt; infer_instance

/-- Abnormal terminations of the C++ code. -/
inductive Fault where
  /-- Integer division or modulo by zero (undefined behaviour). -/
  | division_by_zero
  /-- Thrown by `std::vector::at` / `std::array::at`. -/
  | out_of_range
  /-- Thrown by `std::optional::value` on an empty optional. -/
  | bad_optional_access
  /-- Dereference of an iterator outside its container (undefined behaviour). -/
  | bad_iterator
  deriving DecidableEq, Repr

instance instDecidableEqExceptFault {α : Type} [DecidableEq α] : DecidableEq (Except Fault α)
  | .ok a, .ok b => if h : a = b then isTrue (by rw [h]) else isFalse (fun e => h (by cases e; rfl))
  | .error a, .error b =>
    if h : a = b then isTrue (by rw [h]) else isFalse (fun e => h (by cases e; rfl))
  | .ok _, .error _ => isFalse (fun e => by cases e)
  | .error _, .ok _ => isFalse (fun e => by cases e)

/-- Number of values of `std::size_t`. -/
abbrev SIZE_MOD : Nat := 2 ^ 64

/-- Conversion of a signed integer to `std::size_t`. -/
def toSize (x : Int) : Nat := (x % (SIZE_MOD : Int)).toNat

/-- Conversion of an integer to `std::int32_t` (two's complement). -/
def toInt32 (x : Int) : Int := (x + 2147483648) % 4294967296 - 2147483648

/-- Checked element access: `v.at(i)`. -/
def vec_at {α : Type} (v : List α) (i : Nat) : Except Fault α :=
  match v[i]? with
  | some a => .ok a
  | none => .error .out_of_range

/-- Checked element write: `v.at(i) = a`. -/
def vec_set {α : Type} (v : List α) (i : Nat) (a : α) : Except Fault (List α) :=
  if i < v.length then .ok (v.set i a) else .error .out_of_range

/-- Read through a pointer `*(seeds.begin() + i)` into an initializer list. -/
def deref_at {α : Type} (v : List α) (i : Nat) : Except Fault α :=
  match v[i]? with
  | some a => .ok a
  | none => .error .bad_iterator

/-- Checked read of an optional: `std::optional::value()`. -/
def opt_value {α : Type} (o : Option α) : Except Fault α :=
  match o with
  | some a => .ok a
  | none => .error .bad_optional_access

/-- Counting loop: `for (std::size_t i = lo; i < lo + n; ++i) s = body(i, s);`. -/
def forLoop {σ : Type} (body : Nat → σ → Except Fault σ) : Nat → Nat → σ → Except Fault σ
  | 0, _, s => .ok s
  | n + 1, lo, s => body lo s >>= forLoop body n (lo + 1)

/-- Result of `std::iota(v.begin(), v.end(), 0)` on an `int32_t` vector of length `n`. -/
def iota (n : Nat) : List Int := List.map (fun i : Nat => toInt32 (i : Int)) (List.range n)

/-! ## Alphabet (`SetStringVisitor`, enigma.cpp) -/

/-- Insertion of one element into a `std::set<char>` kept as its ascending list. -/
def set_insert (c : CChar) : List CChar → List CChar
  | [] => [c]
  | x :: xs =>
    if char_lt c x then c :: x :: xs else if c = x then x :: xs else x :: set_insert c xs

/-- Range constructor `std::set<char>(first, last)`: inserts the elements in turn. -/
def set_of_range (s : List CChar) : List CChar := s.foldl (fun acc c => set_insert c acc) []

/-- A `std::set<char>`: the list of its elements, strictly ascending in `char` order. -/
structure CharSet where
  elems : List CChar
  ascending : elems.Pairwise char_lt

/-- The `std::variant<std::string, std::set<char>>` argument of the constructor. -/
inductive AvaCh where
  | str (s : List CChar)
  | set (s : CharSet)

/-- The visitor `SetStringVisitor::operator()`, both overloads (enigma.cpp 3-9), as the ascending
list of the resulting set. -/
def SetStringVisitor : AvaCh → List CChar
  | .str s => set_of_range s
  | .set s => s.elems

/-! ## The machine (`class Enigma`) -/

/-- State of a `dorayaki::Enigma<scramblers_num>` object. -/
structure Enigma where
  scramblers_num : Nat
  available_characters : List CChar
  scramblers_pos : Nat
  scramblers : List (List Int)
  refrector : List Int
  deriving DecidableEq, Repr

namespace Enigma

/-- Lines 49-52: every stage is shuffled with the generator seeded by
`seeds[i % seeds.size()]`. -/
def shuffle_scramblers (shuffle : Nat → List Int → List Int) (seeds : List Nat)
    (scramblers_num : Nat) (scramblers : List (List Int)) : Except Fault (List (List Int)) :=
  forLoop (fun i scr => do
    let seed ← deref_at seeds (i % seeds.length)
    let row ← vec_at scr i
    vec_set scr i (shuffle seed row)) scramblers_num 0 scramblers

/-- Lines 53-56: `v = v - i / scramblers_num` on `scramblers.at(i % scramblers_num).at(i / scramblers_num)`.
The subtraction is computed in `size_t` and stored back into an `int32_t`. -/
def offset_scramblers (scramblers_num card : Nat) (scramblers : List (List Int)) :
    Except Fault (List (List Int)) :=
  forLoop (fun i scr => do
    let row ← vec_at scr (i % scramblers_num)
    let v ← vec_at row (i / scramblers_num)
    let v' := toInt32 (((toSize v + SIZE_MOD - i / scramblers_num) % SIZE_MOD : Nat) : Int)
    let row' ← vec_set row (i / scramblers_num) v'
    vec_set scr (i % scramblers_num) row') (scramblers_num * card) 0 scramblers

/-- Lines 60-63: consecutive entries of the shuffled copy are paired in the reflector. -/
def pair_refrector (ref_copy : List Int) (refrector : List Int) : Except Fault (List Int) :=
  forLoop (fun i r => do
    let a ← vec_at ref_copy (2 * i)
    let b ← vec_at ref_copy (2 * i + 1)
    let r1 ← vec_set r (toSize a) b
    let b2 ← vec_at ref_copy (2 * i + 1)
    let a2 ← vec_at ref_copy (2 * i)
    vec_set r1 (toSize b2) a2) (refrector.length / 2) 0 refrector

/-- The constructor `Enigma(seeds, startpos, avach)` (lines 38-64). -/
def new (shuffle : Nat → List Int → List Int) (scramblers_num : Nat) (seeds : List Nat)
    (startpos : Nat) (avach : AvaCh) : Except Fault Enigma := do
  let available_characters := SetStringVisitor avach
  let card := available_characters.length
  -- `startpos % this->available_characters.size()`
  if card = 0 then throw Fault.division_by_zero
  let scramblers_pos := startpos % card
  let refrector := iota (SetStringVisitor avach).length
  let scramblers := List.replicate scramblers_num refrector
  if seeds.length = 0 then
    return { scramblers_num, available_characters, scramblers_pos, scramblers, refrector }
  let scramblers ← shuffle_scramblers shuffle seeds scramblers_num scramblers
  let scramblers ← offset_scramblers scramblers_num card scramblers
  let ref_copy := refrector
  let seed ← deref_at seeds (scramblers_num % seeds.length)
  let ref_copy := shuffle seed ref_copy
  let refrector ← pair_refrector ref_copy refrector
  return { scramblers_num, available_characters, scramblers_pos, scramblers, refrector }

/-- The loop of `calc_scrambler_position` (lines 87-89): `ind` divisions by the cardinality. -/
def div_loop (card : Nat) : Nat → Nat → Nat
  | 0, p => p
  | i + 1, p => div_loop card i (p / card)

/-- The member `calc_scrambler_position(ind)` (lines 82-91). -/
def calc_scrambler_position (m : Enigma) (ind : Nat) : Except Fault (Option Nat) :=
  if ind ≥ m.scramblers_num then .ok none
  else if m.available_characters.length = 0 then .error .division_by_zero
  else .ok (some (div_loop m.available_characters.length ind m.scramblers_pos
    % m.available_characters.length))

/-- Pre-increment `operator++()` (lines 93-96): the machine after the call. -/
def pre_increment (m : Enigma) : Enigma :=
  { m with scramblers_pos := (m.scramblers_pos + 1) % SIZE_MOD }

/-- Post-increment `operator++(int)` (lines 98-101): the returned copy and the machine
after the call. -/
def post_increment (m : Enigma) : Enigma × Enigma :=
  let m' := { m with scramblers_pos := (m.scramblers_pos + 1) % SIZE_MOD }
  (m', m')

/-- One iteration of the forward loop (lines 112-113) for stage `i` on the running index. -/
def forward_step (m : Enigma) (i : Nat) (ind : Int) : Except Fault Int := do
  let cardinality := m.available_characters.length
  let row ← vec_at m.scramblers i
  let pos ← calc_scrambler_position m i >>= opt_value
  let off ← vec_at row ((toSize ind + pos + cardinality) % SIZE_MOD % cardinality)
  let ind := ind + off
  return (((toSize ind + cardinality) % SIZE_MOD % cardinality : Nat) : Int)

/-- The inner scan of the backward loop (lines 119-124) for stage `s`: `n` candidates
remain, the next one is `j`; the running index is returned unchanged when none matches. -/
def backward_scan (m : Enigma) (s : Nat) (ind : Int) : Nat → Nat → Except Fault Int
  | 0, _ => .ok ind
  | n + 1, j => do
    let cardinality := m.available_characters.length
    let row ← vec_at m.scramblers s
    let pos ← calc_scrambler_position m s >>= opt_value
    let off ← vec_at row ((j + pos + cardinality) % SIZE_MOD % cardinality)
    if (j + toSize off + cardinality) % SIZE_MOD % cardinality = toSize ind then
      return (j : Int)
    else backward_scan m s ind n (j + 1)

/-- One iteration of the backward loop (lines 118-125), loop counter `i`. -/
def backward_step (m : Enigma) (i : Nat) (ind : Int) : Except Fault Int :=
  backward_scan m (m.scramblers_num - i) ind m.available_characters.length 0

/-- Lines 110-125: the running index through the stages, the reflector and the stages
in reverse. -/
def pass (m : Enigma) (ind : Int) : Except Fault Int := do
  let ind ← forLoop (fun i ind => forward_step m i ind) m.scramblers_num 0 ind
  let ind ← vec_at m.refrector (toSize ind)
  forLoop (fun i ind => backward_step m i ind) m.scramblers_num 1 ind

/-- Lines 126-128: `std::advance(b, ind); return *b;` from `cbegin()`. -/
def symbol_at (alphabet : List CChar) (ind : Int) : Except Fault CChar :=
  if 0 ≤ ind then deref_at alphabet ind.toNat else .error .bad_iterator

/-- The call `operator()(char)` (lines 103-129): the returned optional and the machine
after the call. -/
def call_char (m : Enigma) (ch : CChar) : Except Fault (Option CChar × Enigma) :=
  if ch ∉ m.available_characters then .ok (none, m)
  else do
    let ind : Int := (m.available_characters.indexOf ch : Nat)
    let ind ← pass m ind
    let c ← symbol_at m.available_characters ind
    return (some c, m)

/-- The call `operator()(const std::string &)` (lines 131-138): the returned string and the
machine after the call. -/
def call_string (m : Enigma) : List CChar → Except Fault (List CChar × Enigma)
  | [] => .ok ([], m)
  | e :: rest => do
    let r ← call_char m e
    let e' := r.1.getD e
    let m' := pre_increment r.2
    let out ← call_string m' rest
    return (e' :: out.1, out.2)

/-- Representation invariant of a machine object: one row per stage, every row and the
reflector as long as the alphabet, reflector entries are alphabet indices, and the
alphabet is a `std::set` (strictly ascending in `char` order). -/
def WF (m : Enigma) : Prop :=
  m.scramblers.length = m.scramblers_num ∧
  (∀ row ∈ m.scramblers, row.length = m.available_characters.length) ∧
  m.refrector.length = m.available_characters.length ∧
  (∀ r ∈ m.refrector, 0 ≤ r ∧ r < (m.available_characters.length : Int)) ∧
  m.available_characters.Pairwise char_lt

instance instDecidableWF (m : Enigma) : Decidable m.WF := by
  unfold WF; infer_instance

/-- The machine `m` with its position counter at `p`. -/
def at_position (m : Enigma) (p : Nat) : Enigma := { m with scramblers_pos := p }

end Enigma

/-- The phase of stage `i`: digit `i` of the position counter in base `N`. -/
def phase (m : Enigma) (i : Nat) : Nat :=
  m.scramblers_pos / m.available_characters.length ^ i % m.available_characters.length

/-- The assumption made on the standard library's seeded shuffle: the result is a
permutation of the input vector. -/
def ShufflePerm (shuffle : Nat → List Int → List Int) : Prop :=
  ∀ (seed : Nat) (v : List Int), (shuffle seed v).Perm v

/-- The identity sequence `0, 1, …, n-1` as integers. -/
def idl (n : Nat) : List Int := List.map (fun i : Nat => (i : Int)) (List.range n)

/-- The offset table of a permutation vector `P`: slot `s` holds `P[s] - s`. -/
def offsets (P : List Int) : List Int :=
  List.map (fun s : Nat => P.getD s 0 - (s : Int)) (List.range P.length)

/-- Partner of position `q` in the pairing of consecutive positions `(0,1), (2,3), …`. -/
def partner (q : Nat) : Nat := if q % 2 = 0 then q + 1 else q - 1

/-- A keyed machine: well-formed over a non-empty alphabet, every stage row is the offset
table of a permutation of `0 … N-1`, and the reflector is an involution of the indices. -/
def Keyed (m : Enigma) : Prop :=
  m.WF ∧ 0 < m.available_characters.length ∧
  (∀ row ∈ m.scramblers, ∃ P : List Int,
    P.Perm (idl m.available_characters.length) ∧ row = offsets P) ∧
  (∀ j : Nat, j < m.available_characters.length → ∃ j' : Nat,
    j' < m.available_characters.length ∧ m.refrector[j]? = some (j' : Int) ∧
    m.refrector[j']? = some (j : Int))

/-- The stage arrays after `t` iterations of the offset loop (lines 53-56) started on
the permutation vectors `P 0, …, P (k-1)`: the slots with counter `s * k + a < t` have
been turned into offsets. -/
def offset_state (k n t : Nat) (P : Nat → List Int) : List (List Int) :=
  List.map (fun a : Nat => List.map (fun s : Nat =>
    if s * k + a < t then (P a).getD s 0 - (s : Int) else (P a).getD s 0) (List.range n))
    (List.range k)

/-- The stage arrays the constructor builds from a non-empty seed list: stage `a` is the
offset table of the shuffle of the identity sequence under `seeds[a % seeds.size()]`. -/
def seeded_scramblers (shuffle : Nat → List Int → List Int) (k : Nat) (seeds : List Nat)
    (n : Nat) : List (List Int) :=
  List.map (fun a : Nat => offsets (shuffle (seeds.getD (a % seeds.length) 0) (idl n)))
    (List.range k)

/-- The shuffled copy `ref_copy` of the constructor (lines 57-59). -/
def seeded_ref_copy (shuffle : Nat → List Int → List Int) (k : Nat) (seeds : List Nat)
    (n : Nat) : List Int :=
  shuffle (seeds.getD (k % seeds.length) 0) (idl n)

/-- The map of stage `s` on alphabet indices at the machine's position: the running
index `x` plus the offset stored at slot `(x + phase) mod N`, reduced into `[0, N)`. -/
def stage_fn (m : Enigma) (s x : Nat) : Nat :=
  ((x : Int) + (m.scramblers.getD s []).getD ((x + phase m s) % m.available_characters.length) 0
    + (m.available_characters.length : Int)).toNat % m.available_characters.length

/-- A stand-in seeded shuffle (rotation by the seed), used to instantiate the results
that hold for every permutation-valued shuffle. -/
def rot_shuffle (seed : Nat) (v : List Int) : List Int := v.rotate seed

/-- The machine of the scenario: alphabet `ABCD`, one stage, seeds `[42]`, start 0, as
built by `Enigma.new rot_shuffle 1 [42] 0 (.str "ABCD")`. -/
def sample_machine : Enigma :=
  { scramblers_num := 1, available_characters := [65, 66, 67, 68], scramblers_pos := 0,
    scramblers := [[2, 2, -2, -2]], refrector := [1, 0, 3, 2] }

/-! ## Basic facts -/

section basic

theorem char_value_inj {a b : CChar} (h : char_value a = char_value b) : a = b := by
  unfold char_value at h
  apply Fin.ext
  have ha := a.isLt
  have hb := b.isLt
  split at h <;> split at h <;> omega

theorem char_lt_ne {a b : CChar} (h : char_lt a b) : a ≠ b := by
  intro e
  subst e
  exact lt_irrefl _ h

theorem char_lt_trans {a b c : CChar} (h1 : char_lt a b) (h2 : char_lt b c) : char_lt a c :=
  lt_trans h1 h2

theorem char_lt_asymm {a b : CChar} (h : char_lt a b) : ¬ char_lt b a := lt_asymm h

theorem char_lt_of_not {a b : CChar} (h1 : ¬ char_lt a b) (h2 : ¬ a = b) : char_lt b a := by
  rcases lt_trichotomy (char_value a) (char_value b) with h | h | h
  · exact absurd h h1
  · exact absurd (char_value_inj h) h2
  · exact h

@[simp] theorem pure_eq_ok {α : Type} (a : α) : (pure a : Except Fault α) = .ok a := rfl

@[simp] theorem throw_eq_error {α : Type} (e : Fault) :
    (throw e : Except Fault α) = .error e := rfl

@[simp] theorem ok_bind {α β : Type} (a : α) (f : α → Except Fault β) :
    (Except.ok a >>= f) = f a := rfl

@[simp] theorem error_bind {α β : Type} (e : Fault) (f : α → Except Fault β) :
    ((Except.error e : Except Fault α) >>= f) = .error e := rfl

theorem bind_eq_ok {α β : Type} {x : Except Fault α} {f : α → Except Fault β} {b : β} :
    (x >>= f) = .ok b ↔ ∃ a, x = .ok a ∧ f a = .ok b := by
  cases x with
  | error e => simp
  | ok a => simp

theorem vec_at_eq_ok {α : Type} {v : List α} {i : Nat} {a : α} :
    vec_at v i = .ok a ↔ ∃ h : i < v.length, v[i] = a := by
  unfold vec_at
  by_cases h : i < v.length
  · simp [List.getElem?_eq_getElem h, h]
  · simp [List.getElem?_eq_none (Nat.le_of_not_lt h), h]

theorem vec_at_of_lt {α : Type} {v : List α} {i : Nat} (h : i < v.length) :
    vec_at v i = .ok v[i] := vec_at_eq_ok.2 ⟨h, rfl⟩

theorem deref_at_of_lt {α : Type} {v : List α} {i : Nat} (h : i < v.length) :
    deref_at v i = .ok v[i] := by
  unfold deref_at
  simp [List.getElem?_eq_getElem h]

theorem vec_set_of_lt {α : Type} {v : List α} {i : Nat} (a : α) (h : i < v.length) :
    vec_set v i a = .ok (v.set i a) := by
  unfold vec_set
  simp [h]

theorem toSize_of_nonneg {x : Int} (h0 : 0 ≤ x) (h1 : x < (SIZE_MOD : Int)) :
    toSize x = x.toNat := by
  unfold toSize
  rw [Int.emod_eq_of_lt h0 h1]

theorem toSize_natCast {n : Nat} (h : n < SIZE_MOD) : toSize (n : Int) = n := by
  rw [toSize_of_nonneg (Int.natCast_nonneg n) (by exact_mod_cast h)]
  simp

/-- Invariant rule for the counting loop. -/
theorem forLoop_inv {σ : Type} (body : Nat → σ → Except Fault σ) (Inv : Nat → σ → Prop) :
    ∀ (n lo : Nat) (s : σ), Inv lo s →
      (∀ i s, lo ≤ i → i < lo + n → Inv i s → ∃ s', body i s = .ok s' ∧ Inv (i + 1) s') →
      ∃ s', forLoop body n lo s = .ok s' ∧ Inv (lo + n) s' := by
  intro n
  induction n with
  | zero => intro lo s h _; exact ⟨s, rfl, h⟩
  | succ n ih =>
    intro lo s h hstep
    obtain ⟨s1, hs1, hinv1⟩ := hstep lo s (Nat.le_refl _) (by omega) h
    obtain ⟨s2, hs2, hinv2⟩ := ih (lo + 1) s1 hinv1
      (fun i s hi hlt hI => hstep i s (by omega) (by omega) hI)
    refine ⟨s2, ?_, ?_⟩
    · simp [forLoop, hs1, hs2]
    · have : lo + (n + 1) = lo + 1 + n := by omega
      rw [this]; exact hinv2

end basic

/-! ## Phase of a stage -/

section phase

theorem div_loop_eq (card : Nat) : ∀ (i p : Nat), Enigma.div_loop card i p = p / card ^ i := by
  intro i
  induction i with
  | zero => intro p; simp [Enigma.div_loop]
  | succ i ih =>
    intro p
    rw [Enigma.div_loop, ih, Nat.div_div_eq_div_mul, pow_succ, Nat.mul_comm]

theorem calc_of_lt (m : Enigma) {i : Nat} (hi : i < m.scramblers_num)
    (hN : 0 < m.available_characters.length) :
    m.calc_scrambler_position i = .ok (some
      (m.scramblers_pos / m.available_characters.length ^ i % m.available_characters.length)) := by
  unfold Enigma.calc_scrambler_position
  rw [if_neg (by omega), if_neg (by omega), div_loop_eq]

theorem calc_of_ge (m : Enigma) {i : Nat} (hi : m.scramblers_num ≤ i) :
    m.calc_scrambler_position i = .ok none := by
  unfold Enigma.calc_scrambler_position
  rw [if_pos hi]

theorem phase_lt (m : Enigma) (i : Nat) (hN : 0 < m.available_characters.length) :
    phase m i < m.available_characters.length := Nat.mod_lt _ hN

theorem calc_value (m : Enigma) {i : Nat} (hi : i < m.scramblers_num)
    (hN : 0 < m.available_characters.length) :
    (m.calc_scrambler_position i >>= opt_value) = .ok (phase m i) := by
  rw [calc_of_lt m hi hN]; rfl

/-- C9. `calc_scrambler_position(i)` on a machine with `k` stages over a non-empty
alphabet of size `N` returns no value exactly when `i ≥ k`, and for `i < k` returns
digit `i` of the position counter in base `N`, `(pos / N ^ i) mod N`; the loop of `i`
successive divisions computes `pos / N ^ i`. -/
theorem calc_scrambler_position_digit (m : Enigma) (i : Nat)
    (hN : 1 ≤ m.available_characters.length) :
    (m.calc_scrambler_position i = .ok none ↔ m.scramblers_num ≤ i) ∧
    (i < m.scramblers_num → m.calc_scrambler_position i = .ok (some
      (m.scramblers_pos / m.available_characters.length ^ i % m.available_characters.length))) ∧
    Enigma.div_loop m.available_characters.length i m.scramblers_pos
      = m.scramblers_pos / m.available_characters.length ^ i := by
  refine ⟨⟨fun h => ?_, fun h => calc_of_ge m h⟩, fun h => calc_of_lt m h hN, div_loop_eq _ _ _⟩
  by_contra hlt
  rw [calc_of_lt m (Nat.lt_of_not_le hlt) hN] at h
  cases h

theorem calc_scrambler_position_digit_witness :
    1 ≤ sample_machine.available_characters.length ∧
    ((sample_machine.at_position 7).calc_scrambler_position 0 = .ok (some 3)) ∧
    ((sample_machine.at_position 7).calc_scrambler_position 1 = .ok none) :=
  ⟨by decide,
   ((calc_scrambler_position_digit (sample_machine.at_position 7) 0 (by decide)).2.1 (by decide)),
   ((calc_scrambler_position_digit (sample_machine.at_position 7) 1 (by decide)).1.2 (by decide))⟩

end phase

/-! ## The single-symbol transform never faults on a well-formed machine -/

section totality

theorem Enigma.WF.nodup {m : Enigma} (h : m.WF) : m.available_characters.Nodup :=
  h.2.2.2.2.imp (fun hab => char_lt_ne hab)

theorem Enigma.WF.card_le {m : Enigma} (h : m.WF) : m.available_characters.length ≤ 256 := by
  have hle := h.nodup.length_le_card
  rwa [Fintype.card_fin] at hle

theorem Enigma.WF.wf_at {m : Enigma} (h : m.WF) (p : Nat) : (m.at_position p).WF := h

theorem Enigma.WF.wf_incr {m : Enigma} (h : m.WF) : m.pre_increment.WF := h

theorem forward_step_ok {m : Enigma} (h : m.WF) {i : Nat} (hi : i < m.scramblers_num)
    (hN : 0 < m.available_characters.length) (x : Int) :
    ∃ y : Int, m.forward_step i x = .ok y ∧ 0 ≤ y ∧ y < (m.available_characters.length : Int) := by
  have hlen : i < m.scramblers.length := by rw [h.1]; exact hi
  have hrow : (m.scramblers[i]).length = m.available_characters.length :=
    h.2.1 _ (List.getElem_mem hlen)
  have hslot : (toSize x + phase m i + m.available_characters.length) % SIZE_MOD
      % m.available_characters.length < (m.scramblers[i]).length := by
    rw [hrow]; exact Nat.mod_lt _ hN
  refine ⟨(((toSize (x + (m.scramblers[i])[(toSize x + phase m i
      + m.available_characters.length) % SIZE_MOD % m.available_characters.length])
      + m.available_characters.length) % SIZE_MOD % m.available_characters.length : Nat) : Int),
    ?_, Int.natCast_nonneg _, ?_⟩
  · unfold Enigma.forward_step
    simp only [vec_at_of_lt hlen, ok_bind, calc_value m hi hN, vec_at_of_lt hslot, pure_eq_ok]
  · exact_mod_cast Nat.mod_lt _ hN

theorem backward_scan_ok {m : Enigma} (h : m.WF) {s : Nat} (hs : s < m.scramblers_num)
    (hN : 0 < m.available_characters.length) (ind : Int) (h0 : 0 ≤ ind)
    (h1 : ind < (m.available_characters.length : Int)) :
    ∀ (n j : Nat), j + n ≤ m.available_characters.length →
      ∃ y : Int, m.backward_scan s ind n j = .ok y ∧ 0 ≤ y ∧
        y < (m.available_characters.length : Int) := by
  have hlen : s < m.scramblers.length := by rw [h.1]; exact hs
  have hrow : (m.scramblers[s]).length = m.available_characters.length :=
    h.2.1 _ (List.getElem_mem hlen)
  intro n
  induction n with
  | zero => intro j _; exact ⟨ind, rfl, h0, h1⟩
  | succ n ih =>
    intro j hj
    have hslot : (j + phase m s + m.available_characters.length) % SIZE_MOD
        % m.available_characters.length < (m.scramblers[s]).length := by
      rw [hrow]; exact Nat.mod_lt _ hN
    unfold Enigma.backward_scan
    simp only [vec_at_of_lt hlen, ok_bind, calc_value m hs hN, vec_at_of_lt hslot, pure_eq_ok]
    split
    · exact ⟨_, rfl, Int.natCast_nonneg _, by exact_mod_cast (by omega : j < _)⟩
    · exact ih (j + 1) (by omega)

theorem pass_ok {m : Enigma} (h : m.WF) (x : Int) (h0 : 0 ≤ x)
    (h1 : x < (m.available_characters.length : Int)) :
    ∃ y : Int, m.pass x = .ok y ∧ 0 ≤ y ∧ y < (m.available_characters.length : Int) := by
  have hN : 0 < m.available_characters.length := by omega
  have hcard := h.card_le
  -- forward loop
  obtain ⟨a, ha, ha0, ha1⟩ := forLoop_inv (fun i ind => m.forward_step i ind)
    (fun _ y => 0 ≤ y ∧ y < (m.available_characters.length : Int)) m.scramblers_num 0 x ⟨h0, h1⟩
    (fun i s _ hi _ => forward_step_ok h (by omega) hN s)
  -- reflector
  have hsz : toSize a = a.toNat :=
    toSize_of_nonneg ha0 (by have : (SIZE_MOD : Int) = 18446744073709551616 := by norm_num
                             omega)
  have hidx : toSize a < m.refrector.length := by rw [hsz, h.2.2.1]; omega
  have hb := h.2.2.2.1 _ (List.getElem_mem hidx)
  -- backward loop
  obtain ⟨c, hc, hc0, hc1⟩ := forLoop_inv (fun i ind => m.backward_step i ind)
    (fun _ y => 0 ≤ y ∧ y < (m.available_characters.length : Int)) m.scramblers_num 1 _ hb
    (fun i s h1i hi hs => backward_scan_ok h (by omega) hN s hs.1 hs.2 _ 0 (by omega))
  refine ⟨c, ?_, hc0, hc1⟩
  unfold Enigma.pass
  simp only [ha, ok_bind, vec_at_of_lt hidx, hc]

theorem symbol_at_of_lt {l : List CChar} {y : Int} (h0 : 0 ≤ y) (h1 : y < (l.length : Int)) :
    ∃ hlt : y.toNat < l.length, Enigma.symbol_at l y = .ok l[y.toNat] := by
  have hlt : y.toNat < l.length := by omega
  refine ⟨hlt, ?_⟩
  unfold Enigma.symbol_at
  rw [if_pos h0, deref_at_of_lt hlt]

theorem call_char_of_not_mem (m : Enigma) {ch : CChar} (h : ch ∉ m.available_characters) :
    m.call_char ch = .ok (none, m) := by
  unfold Enigma.call_char
  rw [if_pos h]

theorem call_char_of_mem {m : Enigma} (h : m.WF) {ch : CChar}
    (hch : ch ∈ m.available_characters) :
    ∃ c, m.call_char ch = .ok (some c, m) ∧ c ∈ m.available_characters := by
  have hidx : m.available_characters.indexOf ch < m.available_characters.length :=
    List.indexOf_lt_length.2 hch
  obtain ⟨y, hy, hy0, hy1⟩ := pass_ok h (m.available_characters.indexOf ch : Nat)
    (Int.natCast_nonneg _) (by exact_mod_cast hidx)
  obtain ⟨hlt, hsym⟩ := symbol_at_of_lt hy0 hy1
  refine ⟨_, ?_, List.getElem_mem hlt⟩
  unfold Enigma.call_char
  rw [if_neg (not_not.2 hch)]
  simp only [hy, ok_bind, hsym, pure_eq_ok]

theorem call_char_total {m : Enigma} (h : m.WF) (ch : CChar) :
    ∃ r, m.call_char ch = .ok (r, m) := by
  by_cases hch : ch ∈ m.available_characters
  · obtain ⟨c, hc, _⟩ := call_char_of_mem h hch
    exact ⟨some c, hc⟩
  · exact ⟨none, call_char_of_not_mem m hch⟩

theorem call_char_snd (m : Enigma) (ch : CChar) (r : Option CChar) (m' : Enigma)
    (h : m.call_char ch = .ok (r, m')) : m' = m := by
  unfold Enigma.call_char at h
  split at h
  · cases h; rfl
  · obtain ⟨a, _, h⟩ := bind_eq_ok.1 h
    obtain ⟨b, _, h⟩ := bind_eq_ok.1 h
    cases h; rfl

end totality

/-! ## Frame of the single-symbol transform, and the sequence cipher -/

section sequence

/-- C10. The single-symbol transform does not advance the machine: whenever
`operator()(char)` returns, the machine is exactly what it was before the call
(position counter, alphabet, stage arrays, reflector), for symbols in the alphabet or
not; and on every well-formed machine it does return. -/
theorem call_char_frame (m : Enigma) (ch : CChar) :
    (∀ r m', m.call_char ch = .ok (r, m') → m' = m) ∧
    (m.WF → ∃ r, m.call_char ch = .ok (r, m)) :=
  ⟨call_char_snd m ch, fun h => call_char_total h ch⟩

theorem call_char_frame_witness :
    sample_machine.WF ∧
    sample_machine.call_char 65 = .ok (some 66, sample_machine) ∧
    (∃ r, sample_machine.call_char 65 = .ok (r, sample_machine)) ∧
    (∃ r, sample_machine.call_char 32 = .ok (r, sample_machine)) ∧
    sample_machine = sample_machine :=
  ⟨by decide, by decide, (call_char_frame sample_machine 65).2 (by decide),
   (call_char_frame sample_machine 32).2 (by decide),
   (call_char_frame sample_machine 65).1 (some 66) sample_machine (by decide)⟩

theorem at_position_self (m : Enigma) (h : m.scramblers_pos < SIZE_MOD) (p : Nat)
    (hp : p = m.scramblers_pos) : m.at_position (p % SIZE_MOD) = m := by
  subst hp
  rw [Nat.mod_eq_of_lt h]
  rfl

theorem size_mod_eq : SIZE_MOD = 18446744073709551616 := by norm_num

theorem at_position_pre_increment (m : Enigma) (k : Nat) :
    m.pre_increment.at_position ((m.pre_increment.scramblers_pos + k) % SIZE_MOD)
      = m.at_position ((m.scramblers_pos + (k + 1)) % SIZE_MOD) := by
  have hpos : m.pre_increment.scramblers_pos = (m.scramblers_pos + 1) % SIZE_MOD := rfl
  have harith : ((m.scramblers_pos + 1) % SIZE_MOD + k) % SIZE_MOD
      = (m.scramblers_pos + (k + 1)) % SIZE_MOD := by
    rw [size_mod_eq]; omega
  rw [hpos, harith]
  rfl

/-- The sequence cipher, symbol by symbol. -/
theorem call_string_spec : ∀ (S : List CChar) (m : Enigma), m.WF →
    m.scramblers_pos < SIZE_MOD →
    ∃ out, m.call_string S
        = .ok (out, m.at_position ((m.scramblers_pos + S.length) % SIZE_MOD)) ∧
      out.length = S.length ∧
      ∀ (k : Nat) (hk : k < S.length), ∃ r,
        (m.at_position ((m.scramblers_pos + k) % SIZE_MOD)).call_char S[k]
          = .ok (r, m.at_position ((m.scramblers_pos + k) % SIZE_MOD)) ∧
        out[k]? = some (r.getD S[k]) := by
  intro S
  induction S with
  | nil =>
    intro m _ hp
    refine ⟨[], ?_, rfl, fun k hk => absurd hk (Nat.not_lt_zero k)⟩
    rw [Enigma.call_string, List.length_nil, Nat.add_zero, at_position_self m hp _ rfl]
  | cons e rest ih =>
    intro m hwf hp
    obtain ⟨r, hr⟩ := call_char_total hwf e
    have hp' : m.pre_increment.scramblers_pos < SIZE_MOD := Nat.mod_lt _ (by norm_num)
    obtain ⟨out, hout, hlen, hpt⟩ := ih m.pre_increment hwf.wf_incr hp'
    refine ⟨r.getD e :: out, ?_, by simp [hlen], ?_⟩
    · rw [Enigma.call_string]
      simp only [hr, ok_bind, hout, pure_eq_ok, List.length_cons]
      rw [at_position_pre_increment]
    · intro k hk
      cases k with
      | zero =>
        refine ⟨r, ?_, by simp⟩
        rw [Nat.add_zero, at_position_self m hp _ rfl]
        simpa using hr
      | succ k =>
        obtain ⟨r', hr', hget⟩ := hpt k (by simpa using hk)
        rw [at_position_pre_increment] at hr'
        exact ⟨r', by simpa using hr', by simpa using hget⟩

/-- C7. The sequence cipher is the position-indexed pointwise transform. On a
well-formed machine at position `p`, encoding a string `S` of length `L` returns a
string of length `L` whose `k`-th symbol is the single-symbol transform of `S[k]` by
the same machine at position `p + k` (in `size_t` arithmetic) when `S[k]` is in the
alphabet, and `S[k]` itself when it is not. -/
theorem call_string_pointwise (m : Enigma) (S : List CChar) (hwf : m.WF)
    (hp : m.scramblers_pos < SIZE_MOD) :
    ∃ out m', m.call_string S = .ok (out, m') ∧ out.length = S.length ∧
      ∀ (k : Nat) (hk : k < S.length),
        (S[k] ∈ m.available_characters → ∃ c,
          (m.at_position ((m.scramblers_pos + k) % SIZE_MOD)).call_char S[k]
            = .ok (some c, m.at_position ((m.scramblers_pos + k) % SIZE_MOD)) ∧
          out[k]? = some c) ∧
        (S[k] ∉ m.available_characters → out[k]? = some S[k]) := by
  obtain ⟨out, hout, hlen, hpt⟩ := call_string_spec S m hwf hp
  refine ⟨out, _, hout, hlen, fun k hk => ⟨fun hmem => ?_, fun hmem => ?_⟩⟩
  · obtain ⟨r, hr, hget⟩ := hpt k hk
    obtain ⟨c, hc, _⟩ := @call_char_of_mem _
      (hwf.wf_at ((m.scramblers_pos + k) % SIZE_MOD)) S[k] hmem
    rw [hc] at hr
    cases hr
    exact ⟨c, hc, by simpa using hget⟩
  · obtain ⟨r, hr, hget⟩ := hpt k hk
    rw [call_char_of_not_mem _ (by exact hmem)] at hr
    cases hr
    simpa using hget

theorem call_string_pointwise_witness :
    sample_machine.WF ∧ sample_machine.scramblers_pos < SIZE_MOD ∧
    ∃ out m', sample_machine.call_string [65, 32, 66] = .ok (out, m') ∧
      out.length = [(65 : CChar), 32, 66].length ∧
      ∀ (k : Nat) (hk : k < [(65 : CChar), 32, 66].length),
        ([(65 : CChar), 32, 66][k] ∈ sample_machine.available_characters → ∃ c,
          (sample_machine.at_position ((sample_machine.scramblers_pos + k) % SIZE_MOD)).call_char
              [(65 : CChar), 32, 66][k]
            = .ok (some c,
                sample_machine.at_position ((sample_machine.scramblers_pos + k) % SIZE_MOD)) ∧
          out[k]? = some c) ∧
        ([(65 : CChar), 32, 66][k] ∉ sample_machine.available_characters →
          out[k]? = some [(65 : CChar), 32, 66][k]) :=
  ⟨by decide, by decide, call_string_pointwise sample_machine [65, 32, 66] (by decide) (by decide)⟩

/-- C8. Position-advance count. On a well-formed machine at position `p`, encoding a
string of length `L` (whatever mix of in-alphabet and out-of-alphabet symbols) returns
and leaves the machine with position counter `(p + L) mod 2^64`, which is `p + L` when
the machine word does not wrap, and with stage count, alphabet, stage arrays and
reflector unchanged. -/
theorem call_string_position (m : Enigma) (S : List CChar) (hwf : m.WF)
    (hp : m.scramblers_pos < SIZE_MOD) :
    ∃ out m', m.call_string S = .ok (out, m') ∧
      m'.scramblers_pos = (m.scramblers_pos + S.length) % SIZE_MOD ∧
      (m.scramblers_pos + S.length < SIZE_MOD → m'.scramblers_pos = m.scramblers_pos + S.length) ∧
      m'.scramblers_num = m.scramblers_num ∧
      m'.available_characters = m.available_characters ∧
      m'.scramblers = m.scramblers ∧
      m'.refrector = m.refrector := by
  obtain ⟨out, hout, _, _⟩ := call_string_spec S m hwf hp
  exact ⟨out, _, hout, rfl, fun h => Nat.mod_eq_of_lt h, rfl, rfl, rfl, rfl⟩

theorem call_string_position_witness :
    sample_machine.WF ∧ sample_machine.scramblers_pos < SIZE_MOD ∧
    ∃ out m', sample_machine.call_string [65, 32, 66, 33] = .ok (out, m') ∧
      m'.scramblers_pos = (sample_machine.scramblers_pos + 4) % SIZE_MOD ∧
      (sample_machine.scramblers_pos + 4 < SIZE_MOD →
        m'.scramblers_pos = sample_machine.scramblers_pos + 4) ∧
      m'.scramblers_num = sample_machine.scramblers_num ∧
      m'.available_characters = sample_machine.available_characters ∧
      m'.scramblers = sample_machine.scramblers ∧
      m'.refrector = sample_machine.refrector :=
  ⟨by decide, by decide, call_string_position sample_machine [65, 32, 66, 33] (by decide) (by decide)⟩

end sequence

/-! ## Construction without seeds -/

section zero_seeds

theorem new_zero_seeds (shuffle : Nat → List Int → List Int) (k startpos : Nat) (avach : AvaCh)
    (hN : SetStringVisitor avach ≠ []) :
    Enigma.new shuffle k [] startpos avach = .ok
      { scramblers_num := k
        available_characters := SetStringVisitor avach
        scramblers_pos := startpos % (SetStringVisitor avach).length
        scramblers := List.replicate k (iota (SetStringVisitor avach).length)
        refrector := iota (SetStringVisitor avach).length } := by
  have hlen : (SetStringVisitor avach).length ≠ 0 := by
    simpa [List.length_eq_zero] using hN
  unfold Enigma.new
  simp [hlen]

/-- C6 (the code at the failing input). Constructed with no seeds over the alphabet
`AB` with one stage, the machine's stage array is `[0, 1]` (slot `s` holds `s`, the
identity permutation left by the initialisation), not the offset table `[0, 0]`; the
reflector is the identity `[0, 1]`. -/
theorem zero_seeds_stage_array (shuffle : Nat → List Int → List Int) :
    Enigma.new shuffle 1 [] 0 (.str [65, 66]) = .ok
      { scramblers_num := 1, available_characters := [65, 66], scramblers_pos := 0,
        scramblers := [[0, 1]], refrector := [0, 1] } := by
  rw [new_zero_seeds shuffle 1 0 (.str [65, 66]) (by decide)]
  decide

/-- C5 (the code at the failing input). Constructed with no seeds over the alphabet
`AB` with one stage, at position 0 the single-symbol transform maps `B` to `A`, not to
itself. -/
theorem zero_seeds_transform (shuffle : Nat → List Int → List Int) :
    (Enigma.new shuffle 1 [] 0 (.str [65, 66]) >>= fun m => m.call_char 66) = .ok
      (some 65,
       { scramblers_num := 1, available_characters := [65, 66], scramblers_pos := 0,
         scramblers := [[0, 1]], refrector := [0, 1] }) := by
  rw [new_zero_seeds shuffle 1 0 (.str [65, 66]) (by decide)]
  decide

end zero_seeds

/-! ## The alphabet is a strictly ascending list -/

section alphabet

theorem mem_set_insert (c y : CChar) (l : List CChar) :
    y ∈ set_insert c l ↔ y = c ∨ y ∈ l := by
  induction l with
  | nil => simp [set_insert]
  | cons x xs ih =>
    unfold set_insert
    split
    · simp
    · split
      · rename_i hcx
        subst hcx
        simp
      · simp [ih]
        tauto

theorem set_insert_pairwise (c : CChar) (l : List CChar) (h : l.Pairwise char_lt) :
    (set_insert c l).Pairwise char_lt := by
  induction l with
  | nil => simp [set_insert]
  | cons x xs ih =>
    rw [List.pairwise_cons] at h
    unfold set_insert
    split
    · rename_i hcx
      rw [List.pairwise_cons]
      refine ⟨fun y hy => ?_, List.pairwise_cons.2 h⟩
      rcases List.mem_cons.1 hy with rfl | hy
      · exact hcx
      · exact char_lt_trans hcx (h.1 y hy)
    · split
      · exact List.pairwise_cons.2 h
      · rename_i h1 h2
        rw [List.pairwise_cons]
        refine ⟨fun y hy => ?_, ih h.2⟩
        rcases (mem_set_insert c y xs).1 hy with rfl | hy
        · exact char_lt_of_not h1 h2
        · exact h.1 y hy

theorem set_of_range_pairwise (s : List CChar) : (set_of_range s).Pairwise char_lt := by
  unfold set_of_range
  have key : ∀ (s acc : List CChar), acc.Pairwise char_lt →
      (s.foldl (fun acc c => set_insert c acc) acc).Pairwise char_lt := by
    intro s
    induction s with
    | nil => intro acc h; exact h
    | cons c cs ih => intro acc h; exact ih _ (set_insert_pairwise c acc h)
  exact key s [] List.Pairwise.nil

theorem visitor_pairwise (avach : AvaCh) : (SetStringVisitor avach).Pairwise char_lt := by
  cases avach with
  | str s => exact set_of_range_pairwise s
  | set s => exact s.ascending

theorem visitor_length_le (avach : AvaCh) : (SetStringVisitor avach).length ≤ 256 := by
  have hnd : (SetStringVisitor avach).Nodup :=
    (visitor_pairwise avach).imp (fun hab => char_lt_ne hab)
  have hle := hnd.length_le_card
  rwa [Fintype.card_fin] at hle

end alphabet

/-! ## Permutations of the identity sequence -/

section perms

theorem toInt32_of_small {x : Int} (h0 : -2147483648 ≤ x) (h1 : x < 2147483648) :
    toInt32 x = x := by
  unfold toInt32; omega

theorem iota_eq_idl {n : Nat} (h : n ≤ 256) : iota n = idl n := by
  unfold iota idl
  apply List.map_congr_left
  intro i hi
  have := List.mem_range.1 hi
  exact toInt32_of_small (by omega) (by omega)

@[simp] theorem length_idl (n : Nat) : (idl n).length = n := by simp [idl]

theorem getElem?_idl {n j : Nat} (h : j < n) : (idl n)[j]? = some (j : Int) := by
  simp [idl, List.getElem?_map, List.getElem?_range h]

theorem mem_idl {n : Nat} {v : Int} : v ∈ idl n ↔ 0 ≤ v ∧ v < (n : Int) := by
  unfold idl
  rw [List.mem_map]
  constructor
  · rintro ⟨i, hi, rfl⟩
    have := List.mem_range.1 hi
    exact ⟨Int.natCast_nonneg i, by exact_mod_cast this⟩
  · rintro ⟨h0, h1⟩
    exact ⟨v.toNat, List.mem_range.2 (by omega), by omega⟩

theorem nodup_idl (n : Nat) : (idl n).Nodup :=
  (List.nodup_range n).map (fun a b h => by exact_mod_cast h)

theorem perm_length {P : List Int} {n : Nat} (h : P.Perm (idl n)) : P.length = n := by
  rw [h.length_eq, length_idl]

theorem perm_getD_mem {P : List Int} {n : Nat} (h : P.Perm (idl n)) {q : Nat} (hq : q < n) :
    0 ≤ P.getD q 0 ∧ P.getD q 0 < (n : Int) := by
  have hlt : q < P.length := by rw [perm_length h]; exact hq
  rw [List.getD_eq_getElem P 0 hlt]
  exact mem_idl.1 (h.mem_iff.1 (List.getElem_mem hlt))

theorem perm_getD_inj {P : List Int} {n : Nat} (h : P.Perm (idl n)) {q q' : Nat} (hq : q < n)
    (hq' : q' < n) (he : P.getD q 0 = P.getD q' 0) : q = q' := by
  have hlt : q < P.length := by rw [perm_length h]; exact hq
  have hlt' : q' < P.length := by rw [perm_length h]; exact hq'
  rw [List.getD_eq_getElem P 0 hlt, List.getD_eq_getElem P 0 hlt'] at he
  exact ((h.nodup_iff.2 (nodup_idl n)).getElem_inj_iff).1 he

theorem perm_getD_surj {P : List Int} {n : Nat} (h : P.Perm (idl n)) {j : Nat} (hj : j < n) :
    ∃ q, q < n ∧ P.getD q 0 = (j : Int) := by
  have hmem : (j : Int) ∈ P :=
    h.mem_iff.2 (mem_idl.2 ⟨Int.natCast_nonneg j, by exact_mod_cast hj⟩)
  obtain ⟨q, hq, he⟩ := List.getElem_of_mem hmem
  refine ⟨q, by rw [← perm_length h]; exact hq, ?_⟩
  rw [List.getD_eq_getElem P 0 hq, he]

theorem map_getD_range (l : List Int) :
    (List.range l.length).map (fun s => l.getD s 0) = l := by
  apply List.ext_getElem
  · simp
  · intro n h1 h2
    simp [List.getElem?_eq_getElem h2]

theorem deref_at_getD {α : Type} {v : List α} {i : Nat} (h : i < v.length) (d : α) :
    deref_at v i = .ok (v.getD i d) := by
  rw [deref_at_of_lt h, List.getD_eq_getElem v d h]

theorem rot_shuffle_perm : ShufflePerm rot_shuffle := fun seed v => List.rotate_perm v seed

end perms

/-! ## The constructor, phase by phase -/

section shuffle_phase

/-- Lines 49-52 on the freshly filled stage array. -/
theorem shuffle_scramblers_eq (shuffle : Nat → List Int → List Int) (seeds : List Nat)
    (hs : seeds ≠ []) (k : Nat) (init : List Int) :
    Enigma.shuffle_scramblers shuffle seeds k (List.replicate k init) = .ok
      ((List.range k).map (fun a => shuffle (seeds.getD (a % seeds.length) 0) init)) := by
  have hlen : 0 < seeds.length := List.length_pos.2 hs
  obtain ⟨s', hs', hinv⟩ := forLoop_inv
    (fun i scr => do
      let seed ← deref_at seeds (i % seeds.length)
      let row ← vec_at scr i
      vec_set scr i (shuffle seed row))
    (fun t scr => t ≤ k ∧ scr = (List.range k).map (fun a =>
      if a < t then shuffle (seeds.getD (a % seeds.length) 0) init else init))
    k 0 (List.replicate k init)
    ⟨Nat.zero_le k, by
      apply List.ext_getElem
      · simp
      · intro n h1 h2
        simp⟩
    (by
      intro i scr _ hi hI
      obtain ⟨_, rfl⟩ := hI
      have hik : i < k := by omega
      have hi2 : i < ((List.range k).map (fun a =>
          if a < i then shuffle (seeds.getD (a % seeds.length) 0) init else init)).length := by
        simpa using hik
      refine ⟨_, ?_, by omega, rfl⟩
      simp only [deref_at_getD (Nat.mod_lt i hlen) 0, ok_bind, vec_at_of_lt hi2,
        vec_set_of_lt _ hi2]
      congr 1
      apply List.ext_getElem
      · simp
      · intro n h1 h2
        simp only [List.getElem_set, List.getElem_map, List.getElem_range, Nat.lt_irrefl,
          if_false]
        by_cases hin : i = n
        · subst hin; simp
        · have : (n < i + 1) = (n < i) := by
            apply propext; constructor <;> intro h <;> omega
          simp [hin, this])
  unfold Enigma.shuffle_scramblers
  rw [hs', hinv.2]
  congr 1
  apply List.map_congr_left
  intro a ha
  have := List.mem_range.1 ha
  simp [this]

end shuffle_phase

section offset_phase

theorem offset_value {v : Int} {s : Nat} (h0 : 0 ≤ v) (h1 : v < 256) (hs : s < 256) :
    toInt32 (((toSize v + SIZE_MOD - s) % SIZE_MOD : Nat) : Int) = v - (s : Int) := by
  rw [toSize_of_nonneg h0 (by rw [size_mod_eq]; omega), size_mod_eq]
  unfold toInt32
  omega

theorem counter_unique {k a s i : Nat} (ha : a < k) (h : s * k + a = i) :
    a = i % k ∧ s = i / k := by
  have hk : 0 < k := by omega
  have := (Nat.div_mod_unique (a := i) (c := a) (d := s) hk).2 ⟨by rw [Nat.mul_comm]; omega, ha⟩
  exact ⟨this.2.symm, this.1.symm⟩

theorem offset_state_length (k n t : Nat) (P : Nat → List Int) :
    (offset_state k n t P).length = k := by
  simp [offset_state]

theorem offset_state_getElem (k n t : Nat) (P : Nat → List Int) (a : Nat)
    (h : a < (offset_state k n t P).length) :
    (offset_state k n t P)[a] = List.map (fun s : Nat =>
      if s * k + a < t then (P a).getD s 0 - (s : Int) else (P a).getD s 0) (List.range n) := by
  simp [offset_state]

theorem offset_state_step (k n i : Nat) (P : Nat → List Int) (hi : i < k * n)
    (hrow : i % k < (offset_state k n i P).length) :
    (offset_state k n i P).set (i % k)
      (((offset_state k n i P)[i % k]).set (i / k)
        ((P (i % k)).getD (i / k) 0 - ((i / k : Nat) : Int)))
      = offset_state k n (i + 1) P := by
  have hk : 0 < k := by
    rcases Nat.eq_zero_or_pos k with h | h
    · subst h; simp at hi
    · exact h
  have ha : i % k < k := Nat.mod_lt i hk
  have hdm : i / k * k + i % k = i := Nat.div_add_mod' i k
  apply List.ext_getElem
  · simp [offset_state_length]
  · intro a h1 h2
    have hak : a < k := by simpa [offset_state_length] using h2
    simp only [List.getElem_set, offset_state_getElem]
    by_cases hia : i % k = a
    · rw [if_pos hia]
      subst hia
      apply List.ext_getElem
      · simp
      · intro s h3 h4
        simp only [List.getElem_set, List.getElem_map, List.getElem_range]
        by_cases his : i / k = s
        · subst his
          rw [if_pos rfl, if_pos (by omega)]
        · rw [if_neg his]
          have hne : s * k + i % k ≠ i := fun e => his (counter_unique ha e).2.symm
          by_cases hlt : s * k + i % k < i
          · rw [if_pos hlt, if_pos (by omega)]
          · rw [if_neg hlt, if_neg (by omega)]
    · rw [if_neg hia]
      apply List.map_congr_left
      intro s _
      have hne : s * k + a ≠ i := fun e => hia (counter_unique hak e).1.symm
      by_cases hlt : s * k + a < i
      · rw [if_pos hlt, if_pos (by omega)]
      · rw [if_neg hlt, if_neg (by omega)]

/-- Lines 53-56 on the shuffled stage arrays: every row becomes the offset table of its
permutation vector. -/
theorem offset_scramblers_eq (k n : Nat) (P : Nat → List Int)
    (hP : ∀ a, a < k → (P a).Perm (idl n)) (hn : n ≤ 256) :
    Enigma.offset_scramblers k n (List.map P (List.range k)) = .ok
      (List.map (fun a => offsets (P a)) (List.range k)) := by
  obtain ⟨s', hs', hinv⟩ := forLoop_inv
    (fun i scr => do
      let row ← vec_at scr (i % k)
      let v ← vec_at row (i / k)
      let v' := toInt32 (((toSize v + SIZE_MOD - i / k) % SIZE_MOD : Nat) : Int)
      let row' ← vec_set row (i / k) v'
      vec_set scr (i % k) row')
    (fun t scr => scr = offset_state k n t P)
    (k * n) 0 (List.map P (List.range k))
    (by
      unfold offset_state
      apply List.map_congr_left
      intro a ha
      have hlen := perm_length (hP a (List.mem_range.1 ha))
      simp only [Nat.not_lt_zero, if_false]
      rw [← hlen, map_getD_range])
    (by
      intro i scr _ hi hI
      subst hI
      have hi' : i < k * n := by omega
      have hk : 0 < k := by
        rcases Nat.eq_zero_or_pos k with h | h
        · subst h; simp at hi'
        · exact h
      have ha : i % k < k := Nat.mod_lt i hk
      have hs : i / k < n := Nat.div_lt_of_lt_mul hi'
      have hdm : i / k * k + i % k = i := Nat.div_add_mod' i k
      have hrow : i % k < (offset_state k n i P).length := by
        rw [offset_state_length]; exact ha
      have hslot : i / k < ((offset_state k n i P)[i % k]).length := by
        rw [offset_state_getElem]; simpa using hs
      have hval : ((offset_state k n i P)[i % k])[i / k] = (P (i % k)).getD (i / k) 0 := by
        simp only [offset_state_getElem, List.getElem_map, List.getElem_range]
        rw [if_neg (by omega)]
      have hrange := perm_getD_mem (hP _ ha) hs
      refine ⟨offset_state k n (i + 1) P, ?_, rfl⟩
      simp only [vec_at_of_lt hrow, ok_bind, vec_at_of_lt hslot, vec_set_of_lt _ hslot,
        vec_set_of_lt _ hrow, hval]
      rw [offset_value hrange.1 (by omega) (by omega), offset_state_step k n i P hi' hrow])
  unfold Enigma.offset_scramblers
  rw [hs', hinv]
  unfold offset_state offsets
  congr 1
  apply List.map_congr_left
  intro a ha
  have hak := List.mem_range.1 ha
  rw [perm_length (hP a hak)]
  apply List.map_congr_left
  intro s hs
  have hsn := List.mem_range.1 hs
  have hlt : s * k + a < 0 + k * n := by
    have h1 : s * k + a < s * k + k := by omega
    have h2 : s * k + k = (s + 1) * k := by ring
    have h3 : (s + 1) * k ≤ n * k := Nat.mul_le_mul_right k (by omega)
    have h4 : n * k = k * n := Nat.mul_comm n k
    omega
  rw [if_pos hlt]

end offset_phase

section reflector_phase

theorem getElem?_eq_some_getD {l : List Int} {i : Nat} (h : i < l.length) :
    l[i]? = some (l.getD i 0) := by
  rw [List.getElem?_eq_getElem h, List.getD_eq_getElem l 0 h]

theorem vec_at_getD {v : List Int} {i : Nat} (h : i < v.length) :
    vec_at v i = .ok (v.getD i 0) := by
  rw [vec_at_of_lt h, List.getD_eq_getElem v 0 h]

theorem partner_even (t : Nat) : partner (2 * t) = 2 * t + 1 := by
  unfold partner; rw [if_pos (by omega)]

theorem partner_odd (t : Nat) : partner (2 * t + 1) = 2 * t := by
  unfold partner; rw [if_neg (by omega)]; omega

/-- Lines 60-63: the reflector after the pairing loop, read at the entries of the
shuffled copy `c`. -/
theorem pair_refrector_spec (c : List Int) (n : Nat) (hc : c.Perm (idl n)) (hn : n ≤ 256) :
    ∃ r, Enigma.pair_refrector c (idl n) = .ok r ∧ r.length = n ∧
      ∀ q, q < n → r[(c.getD q 0).toNat]? =
        some (if q / 2 < n / 2 then c.getD (partner q) 0 else c.getD q 0) := by
  have hclen : c.length = n := perm_length hc
  obtain ⟨r, hr, hinv⟩ := forLoop_inv
    (fun i r => do
      let a ← vec_at c (2 * i)
      let b ← vec_at c (2 * i + 1)
      let r1 ← vec_set r (toSize a) b
      let b2 ← vec_at c (2 * i + 1)
      let a2 ← vec_at c (2 * i)
      vec_set r1 (toSize b2) a2)
    (fun t r => r.length = n ∧ ∀ q, q < n → r[(c.getD q 0).toNat]? =
        some (if q / 2 < t then c.getD (partner q) 0 else c.getD q 0))
    (n / 2) 0 (idl n)
    ⟨length_idl n, by
      intro q hq
      obtain ⟨h0, h1⟩ := perm_getD_mem hc hq
      rw [getElem?_idl (by omega), if_neg (Nat.not_lt_zero _)]
      congr 1
      omega⟩
    (by
      intro t r _ ht hI
      obtain ⟨hrlen, hI⟩ := hI
      have h2t : 2 * t + 1 < n := by omega
      have ha := perm_getD_mem hc (show 2 * t < n by omega)
      have hb := perm_getD_mem hc h2t
      have hab : c.getD (2 * t) 0 ≠ c.getD (2 * t + 1) 0 := fun e => by
        have := perm_getD_inj hc (by omega) h2t e
        omega
      have hsa : toSize (c.getD (2 * t) 0) = (c.getD (2 * t) 0).toNat :=
        toSize_of_nonneg ha.1 (by rw [size_mod_eq]; omega)
      have hsb : toSize (c.getD (2 * t + 1) 0) = (c.getD (2 * t + 1) 0).toNat :=
        toSize_of_nonneg hb.1 (by rw [size_mod_eq]; omega)
      have hia : (c.getD (2 * t) 0).toNat < r.length := by omega
      have hib : (c.getD (2 * t + 1) 0).toNat
          < (r.set (c.getD (2 * t) 0).toNat (c.getD (2 * t + 1) 0)).length := by
        rw [List.length_set]; omega
      refine ⟨(r.set (c.getD (2 * t) 0).toNat (c.getD (2 * t + 1) 0)).set
          (c.getD (2 * t + 1) 0).toNat (c.getD (2 * t) 0), ?_, by simpa using hrlen, ?_⟩
      · simp only [vec_at_getD (show 2 * t < c.length by omega),
          vec_at_getD (show 2 * t + 1 < c.length by omega), ok_bind, hsa, hsb,
          vec_set_of_lt _ hia, vec_set_of_lt _ hib]
      · intro q hq
        have hcq := perm_getD_mem hc hq
        rw [List.getElem?_set, List.getElem?_set]
        by_cases hq1 : q = 2 * t + 1
        · subst hq1
          rw [if_pos rfl, if_pos (by rw [List.length_set]; omega), partner_odd,
            if_pos (by omega)]
        · have hne1 : (c.getD (2 * t + 1) 0).toNat ≠ (c.getD q 0).toNat := fun e => by
            have : c.getD (2 * t + 1) 0 = c.getD q 0 := by omega
            exact hq1 (perm_getD_inj hc h2t hq this).symm
          rw [if_neg hne1]
          by_cases hq0 : q = 2 * t
          · subst hq0
            rw [if_pos rfl, if_pos hia, partner_even, if_pos (by omega)]
          · have hne0 : (c.getD (2 * t) 0).toNat ≠ (c.getD q 0).toNat := fun e => by
              have : c.getD (2 * t) 0 = c.getD q 0 := by omega
              exact hq0 (perm_getD_inj hc (by omega) hq this).symm
            rw [if_neg hne0, hI q hq]
            by_cases hlt : q / 2 < t
            · rw [if_pos hlt, if_pos (by omega)]
            · rw [if_neg hlt, if_neg (by omega)])
  refine ⟨r, ?_, hinv.1, ?_⟩
  · unfold Enigma.pair_refrector
    rw [length_idl]
    exact hr
  · intro q hq
    have := hinv.2 q hq
    rwa [Nat.zero_add] at this

end reflector_phase

section construction

/-- The constructor on a non-empty seed list and a non-empty alphabet, for a
permutation-valued shuffle: it returns, and the machine is determined up to the
reflector, which is the result of the pairing loop. -/
theorem new_seeded (shuffle : Nat → List Int → List Int) (hperm : ShufflePerm shuffle)
    (k : Nat) (seeds : List Nat) (hs : seeds ≠ []) (startpos : Nat) (avach : AvaCh)
    (hN : SetStringVisitor avach ≠ []) :
    ∃ refl, Enigma.pair_refrector
        (seeded_ref_copy shuffle k seeds (SetStringVisitor avach).length)
        (idl (SetStringVisitor avach).length) = .ok refl ∧
      Enigma.new shuffle k seeds startpos avach = .ok
        { scramblers_num := k
          available_characters := SetStringVisitor avach
          scramblers_pos := startpos % (SetStringVisitor avach).length
          scramblers := seeded_scramblers shuffle k seeds (SetStringVisitor avach).length
          refrector := refl } := by
  have hlen : (SetStringVisitor avach).length ≠ 0 := by
    simpa [List.length_eq_zero] using hN
  have hslen : seeds.length ≠ 0 := by simpa [List.length_eq_zero] using hs
  have hle := visitor_length_le avach
  obtain ⟨refl, hrefl, _, _⟩ := pair_refrector_spec
    (seeded_ref_copy shuffle k seeds (SetStringVisitor avach).length)
    (SetStringVisitor avach).length (hperm _ _) hle
  refine ⟨refl, hrefl, ?_⟩
  have hoff := offset_scramblers_eq k (SetStringVisitor avach).length
    (fun a => shuffle (seeds.getD (a % seeds.length) 0) (idl (SetStringVisitor avach).length))
    (fun a _ => hperm _ _) hle
  unfold seeded_ref_copy at hrefl
  unfold Enigma.new
  simp only [hlen, hslen, if_false, iota_eq_idl hle, shuffle_scramblers_eq shuffle seeds hs,
    hoff, deref_at_getD (Nat.mod_lt k (Nat.pos_of_ne_zero hslen)) 0, hrefl, ok_bind,
    pure_eq_ok, bind_pure_comp, Functor.map, Except.map]
  rfl

end construction

section reflector_props

theorem partner_lt {q n : Nat} (h : q / 2 < n / 2) : partner q < n := by
  unfold partner; split <;> omega

theorem partner_half (q : Nat) : partner q / 2 = q / 2 := by
  unfold partner; split <;> omega

theorem partner_partner (q : Nat) : partner (partner q) = q := by
  unfold partner; split <;> split <;> omega

theorem partner_ne (q : Nat) : partner q ≠ q := by
  unfold partner; split <;> omega

/-- What the pairing loop leaves in the reflector: an involution of the indices whose
only possible fixed point is the last entry of the shuffled copy, for odd length. -/
theorem paired_involution (c r : List Int) (n : Nat) (hc : c.Perm (idl n))
    (hspec : ∀ q, q < n → r[(c.getD q 0).toNat]? =
        some (if q / 2 < n / 2 then c.getD (partner q) 0 else c.getD q 0))
    (j : Nat) (hj : j < n) :
    ∃ j', j' < n ∧ r[j]? = some (j' : Int) ∧ r[j']? = some (j : Int) ∧
      (j' = j ↔ (n % 2 = 1 ∧ c.getD (n - 1) 0 = (j : Int))) := by
  obtain ⟨q, hq, hcq⟩ := perm_getD_surj hc hj
  have hjq : (c.getD q 0).toNat = j := by omega
  by_cases hlt : q / 2 < n / 2
  · have hq' := partner_lt hlt
    have hmem := perm_getD_mem hc hq'
    have h1 := hspec q hq
    rw [if_pos hlt, hjq] at h1
    have h2 := hspec (partner q) hq'
    rw [partner_half q, if_pos hlt, partner_partner, hcq] at h2
    refine ⟨(c.getD (partner q) 0).toNat, by omega, ?_, h2, ?_⟩
    · rw [h1]; congr 1; omega
    · constructor
      · intro e
        exfalso
        have : c.getD (partner q) 0 = c.getD q 0 := by omega
        exact partner_ne q (perm_getD_inj hc hq' hq this)
      · rintro ⟨hodd, hlast⟩
        exfalso
        have : n - 1 = q := perm_getD_inj hc (by omega) hq (by rw [hlast, hcq])
        omega
  · have h1 := hspec q hq
    rw [if_neg hlt, hjq, hcq] at h1
    refine ⟨j, hj, h1, h1, ?_⟩
    have hqn : q = n - 1 := by omega
    constructor
    · intro _
      exact ⟨by omega, by rw [← hqn, hcq]⟩
    · intro _; rfl

/-- C4. The reflector built by the constructor from a non-empty seed list (the shuffle
returning a permutation) over an alphabet of size `N ≥ 1` has length `N`; for every
`i < N` its entry `r = reflector[i]` lies in `[0, N)` and `reflector[r] = i`; for even
`N` no entry is a fixed point, and for odd `N` the fixed points are exactly the one
index that is the last element of the shuffled copy. -/
theorem reflector_involution (shuffle : Nat → List Int → List Int) (hperm : ShufflePerm shuffle)
    (k : Nat) (seeds : List Nat) (hs : seeds ≠ []) (startpos : Nat) (avach : AvaCh)
    (hN : SetStringVisitor avach ≠ []) :
    ∃ m, Enigma.new shuffle k seeds startpos avach = .ok m ∧
      m.refrector.length = (SetStringVisitor avach).length ∧
      (∀ i, i < (SetStringVisitor avach).length → ∃ r : Nat,
        r < (SetStringVisitor avach).length ∧
        m.refrector[i]? = some (r : Int) ∧ m.refrector[r]? = some (i : Int)) ∧
      ((SetStringVisitor avach).length % 2 = 0 →
        ∀ i, i < (SetStringVisitor avach).length → m.refrector[i]? ≠ some (i : Int)) ∧
      ((SetStringVisitor avach).length % 2 = 1 →
        ∀ i, i < (SetStringVisitor avach).length →
          (m.refrector[i]? = some (i : Int) ↔
            (shuffle (seeds.getD (k % seeds.length) 0) (iota (SetStringVisitor avach).length))[
              (SetStringVisitor avach).length - 1]? = some (i : Int))) := by
  have hle := visitor_length_le avach
  have hpos : 0 < (SetStringVisitor avach).length := List.length_pos.2 hN
  obtain ⟨refl, hrefl, hnew⟩ := new_seeded shuffle hperm k seeds hs startpos avach hN
  have hc : (seeded_ref_copy shuffle k seeds (SetStringVisitor avach).length).Perm
      (idl (SetStringVisitor avach).length) := hperm _ _
  obtain ⟨r', hr', hrlen, hspec⟩ := pair_refrector_spec _ _ hc hle
  rw [hrefl] at hr'
  cases hr'
  have hinv := paired_involution _ refl _ hc hspec
  refine ⟨_, hnew, hrlen, ?_, ?_, ?_⟩
  · intro i hi
    obtain ⟨j', hj', h1, h2, _⟩ := hinv i hi
    exact ⟨j', hj', h1, h2⟩
  · intro heven i hi hfix
    obtain ⟨j', hj', h1, h2, h3⟩ := hinv i hi
    have hval : refl[i]? = some (j' : Int) := h1
    have hfix' : refl[i]? = some (i : Int) := hfix
    rw [hval] at hfix'
    have : j' = i := by
      have := Option.some.inj hfix'
      exact_mod_cast this
    have := (h3.1 this).1
    omega
  · intro hodd i hi
    obtain ⟨j', hj', h1, h2, h3⟩ := hinv i hi
    have hval : refl[i]? = some (j' : Int) := h1
    have hclen := perm_length hc
    have hlast : (shuffle (seeds.getD (k % seeds.length) 0)
        (iota (SetStringVisitor avach).length))[(SetStringVisitor avach).length - 1]?
        = some ((seeded_ref_copy shuffle k seeds (SetStringVisitor avach).length).getD
            ((SetStringVisitor avach).length - 1) 0) := by
      rw [iota_eq_idl hle]
      have hidx : (SetStringVisitor avach).length - 1 < (shuffle
          (seeds.getD (k % seeds.length) 0) (idl (SetStringVisitor avach).length)).length := by
        have : (shuffle (seeds.getD (k % seeds.length) 0)
            (idl (SetStringVisitor avach).length)).length = (SetStringVisitor avach).length :=
          hclen
        omega
      exact getElem?_eq_some_getD hidx
    rw [hlast]
    show refl[i]? = some (i : Int) ↔ _
    rw [hval]
    constructor
    · intro e
      have : j' = i := by
        have := Option.some.inj e
        exact_mod_cast this
      rw [(h3.1 this).2]
    · intro e
      have := h3.2 ⟨hodd, Option.some.inj e⟩
      rw [this]

theorem reflector_involution_witness :
    ShufflePerm rot_shuffle ∧ ([42] : List Nat) ≠ [] ∧
    SetStringVisitor (.str [65, 66, 67, 68, 69]) ≠ [] ∧
    ∃ m, Enigma.new rot_shuffle 1 [42] 0 (.str [65, 66, 67, 68, 69]) = .ok m ∧
      m.refrector.length = (SetStringVisitor (.str [65, 66, 67, 68, 69])).length ∧
      (∀ i, i < (SetStringVisitor (.str [65, 66, 67, 68, 69])).length → ∃ r : Nat,
        r < (SetStringVisitor (.str [65, 66, 67, 68, 69])).length ∧
        m.refrector[i]? = some (r : Int) ∧ m.refrector[r]? = some (i : Int)) ∧
      ((SetStringVisitor (.str [65, 66, 67, 68, 69])).length % 2 = 0 →
        ∀ i, i < (SetStringVisitor (.str [65, 66, 67, 68, 69])).length →
          m.refrector[i]? ≠ some (i : Int)) ∧
      ((SetStringVisitor (.str [65, 66, 67, 68, 69])).length % 2 = 1 →
        ∀ i, i < (SetStringVisitor (.str [65, 66, 67, 68, 69])).length →
          (m.refrector[i]? = some (i : Int) ↔
            (rot_shuffle (([42] : List Nat).getD (1 % ([42] : List Nat).length) 0)
              (iota (SetStringVisitor (.str [65, 66, 67, 68, 69])).length))[
              (SetStringVisitor (.str [65, 66, 67, 68, 69])).length - 1]? = some (i : Int))) :=
  ⟨rot_shuffle_perm, by decide, by decide,
   reflector_involution rot_shuffle rot_shuffle_perm 1 [42] (by decide) 0
     (.str [65, 66, 67, 68, 69]) (by decide)⟩

end reflector_props

/-! ## The stages of a keyed machine -/

section stages

theorem mod_cases3 (a n : Nat) (h : a < 3 * n) :
    (a < n ∧ a % n = a) ∨ (n ≤ a ∧ a < 2 * n ∧ a % n = a - n) ∨
    (2 * n ≤ a ∧ a % n = a - 2 * n) := by
  by_cases h1 : a < n
  · exact Or.inl ⟨h1, Nat.mod_eq_of_lt h1⟩
  · by_cases h2 : a < 2 * n
    · refine Or.inr (Or.inl ⟨by omega, h2, ?_⟩)
      rw [Nat.mod_eq_sub_mod (by omega), Nat.mod_eq_of_lt (by omega)]
    · refine Or.inr (Or.inr ⟨by omega, ?_⟩)
      rw [Nat.mod_eq_sub_mod (by omega), Nat.mod_eq_sub_mod (by omega),
        Nat.mod_eq_of_lt (by omega)]
      omega

theorem offsets_length (P : List Int) : (offsets P).length = P.length := by
  simp [offsets]

theorem offsets_getD {P : List Int} {s : Nat} (h : s < P.length) :
    (offsets P).getD s 0 = P.getD s 0 - (s : Int) := by
  rw [List.getD_eq_getElem _ _ (by rw [offsets_length]; exact h)]
  simp [offsets]

theorem Keyed.keyed_at {m : Enigma} (h : Keyed m) (p : Nat) : Keyed (m.at_position p) := h

/-- The row of stage `s` of a keyed machine. -/
theorem Keyed.row {m : Enigma} (h : Keyed m) {s : Nat} (hs : s < m.scramblers_num) :
    ∃ P : List Int, P.Perm (idl m.available_characters.length) ∧
      m.scramblers[s]? = some (offsets P) ∧ m.scramblers.getD s [] = offsets P := by
  have hlen : s < m.scramblers.length := by rw [h.1.1]; exact hs
  obtain ⟨P, hP, hrow⟩ := h.2.2.1 _ (List.getElem_mem hlen)
  refine ⟨P, hP, ?_, ?_⟩
  · rw [List.getElem?_eq_getElem hlen, hrow]
  · rw [List.getD_eq_getElem _ _ hlen, hrow]

theorem stage_fn_lt (m : Enigma) (s x : Nat) (hN : 0 < m.available_characters.length) :
    stage_fn m s x < m.available_characters.length := Nat.mod_lt _ hN

/-- The value of a stage in terms of its permutation vector:
`(P[(x + ph) mod N] - ph) mod N`. -/
theorem stage_fn_eq {m : Enigma} (h : Keyed m) {s : Nat} {P : List Int}
    (hP : P.Perm (idl m.available_characters.length))
    (hrow : m.scramblers.getD s [] = offsets P) {x : Nat} (hx : x < m.available_characters.length) :
    stage_fn m s x = ((P.getD ((x + phase m s) % m.available_characters.length) 0).toNat
      + m.available_characters.length - phase m s) % m.available_characters.length := by
  have hN := h.2.1
  have hph := phase_lt m s hN
  have hslot : (x + phase m s) % m.available_characters.length < m.available_characters.length :=
    Nat.mod_lt _ hN
  have hv := perm_getD_mem hP hslot
  unfold stage_fn
  rw [hrow, offsets_getD (by rw [perm_length hP]; exact hslot)]
  generalize hvd : P.getD ((x + phase m s) % m.available_characters.length) 0 = v at hv ⊢
  generalize hsd : (x + phase m s) % m.available_characters.length = sl at hslot ⊢
  have hsl := mod_cases3 (x + phase m s) m.available_characters.length (by omega)
  rw [hsd] at hsl
  generalize phase m s = ph at hph hsl ⊢
  generalize m.available_characters.length = n at hN hx hph hslot hv hsl ⊢
  have hA : ((x : Int) + (v - (sl : Int)) + (n : Int)).toNat = x + v.toNat + n - sl := by omega
  rw [hA]
  rcases mod_cases3 (x + v.toNat + n - sl) n (by omega) with h1 | h1 | h1 <;>
  rcases mod_cases3 (v.toNat + n - ph) n (by omega) with h2 | h2 | h2 <;>
  omega

theorem stage_fn_inj {m : Enigma} (h : Keyed m) {s : Nat} (hs : s < m.scramblers_num)
    {x x' : Nat} (hx : x < m.available_characters.length)
    (hx' : x' < m.available_characters.length) (he : stage_fn m s x = stage_fn m s x') :
    x = x' := by
  obtain ⟨P, hP, _, hrow⟩ := h.row hs
  have hN := h.2.1
  have hph := phase_lt m s hN
  rw [stage_fn_eq h hP hrow hx, stage_fn_eq h hP hrow hx'] at he
  have hslot : (x + phase m s) % m.available_characters.length < m.available_characters.length :=
    Nat.mod_lt _ hN
  have hslot' : (x' + phase m s) % m.available_characters.length
      < m.available_characters.length := Nat.mod_lt _ hN
  have hv := perm_getD_mem hP hslot
  have hv' := perm_getD_mem hP hslot'
  have hvv : P.getD ((x + phase m s) % m.available_characters.length) 0
      = P.getD ((x' + phase m s) % m.available_characters.length) 0 := by
    generalize P.getD ((x + phase m s) % m.available_characters.length) 0 = v at hv he ⊢
    generalize P.getD ((x' + phase m s) % m.available_characters.length) 0 = v' at hv' he ⊢
    generalize phase m s = ph at hph he
    generalize m.available_characters.length = n at hN hph hv hv' he
    rcases mod_cases3 (v.toNat + n - ph) n (by omega) with h1 | h1 | h1 <;>
    rcases mod_cases3 (v'.toNat + n - ph) n (by omega) with h2 | h2 | h2 <;>
    omega
  have hss := perm_getD_inj hP hslot hslot' hvv
  generalize phase m s = ph at hph hss
  generalize m.available_characters.length = n at hN hph hx hx' hss
  rcases mod_cases3 (x + ph) n (by omega) with h1 | h1 | h1 <;>
  rcases mod_cases3 (x' + ph) n (by omega) with h2 | h2 | h2 <;>
  omega

theorem stage_fn_surj {m : Enigma} (h : Keyed m) {s : Nat} (hs : s < m.scramblers_num)
    {t : Nat} (ht : t < m.available_characters.length) :
    ∃ x, x < m.available_characters.length ∧ stage_fn m s x = t := by
  have hN := h.2.1
  have hinj : Function.Injective (fun x : Fin m.available_characters.length =>
      (⟨stage_fn m s x.1, stage_fn_lt m s x.1 hN⟩ : Fin m.available_characters.length)) := by
    intro a b hab
    exact Fin.ext (stage_fn_inj h hs a.2 b.2 (Fin.mk.inj hab))
  obtain ⟨x, hx⟩ := (Finite.injective_iff_surjective.1 hinj) ⟨t, ht⟩
  exact ⟨x.1, x.2, Fin.mk.inj hx⟩

end stages

section stage_steps

theorem toSize_eq (x : Int) : toSize x = (x % 18446744073709551616).toNat := by
  unfold toSize
  rw [size_mod_eq]
  rfl

theorem stage_offset_bounds {m : Enigma} (h : Keyed m) {s : Nat} (hs : s < m.scramblers_num)
    {sl : Nat} (hsl : sl < m.available_characters.length) :
    -(m.available_characters.length : Int) < (m.scramblers.getD s []).getD sl 0 ∧
    (m.scramblers.getD s []).getD sl 0 < (m.available_characters.length : Int) := by
  obtain ⟨P, hP, _, hrow⟩ := h.row hs
  have hv := perm_getD_mem hP hsl
  rw [hrow, offsets_getD (by rw [perm_length hP]; exact hsl)]
  omega

theorem stage_row_length {m : Enigma} (h : Keyed m) {s : Nat} (hs : s < m.scramblers_num) :
    (m.scramblers.getD s []).length = m.available_characters.length := by
  have hlen : s < m.scramblers.length := by rw [h.1.1]; exact hs
  rw [List.getD_eq_getElem _ _ hlen]
  exact h.1.2.1 _ (List.getElem_mem hlen)

/-- The index arithmetic of lines 112-113 and 120, free of machine-word wrap. -/
theorem stage_arith {m : Enigma} (h : Keyed m) {s : Nat} (hs : s < m.scramblers_num)
    {x : Nat} (hx : x < m.available_characters.length) :
    (toSize (x : Int) + phase m s + m.available_characters.length) % SIZE_MOD
        % m.available_characters.length = (x + phase m s) % m.available_characters.length ∧
    (x + phase m s + m.available_characters.length) % SIZE_MOD
        % m.available_characters.length = (x + phase m s) % m.available_characters.length ∧
    (toSize ((x : Int) + (m.scramblers.getD s []).getD
        ((x + phase m s) % m.available_characters.length) 0) + m.available_characters.length)
        % SIZE_MOD % m.available_characters.length = stage_fn m s x ∧
    (x + toSize ((m.scramblers.getD s []).getD
        ((x + phase m s) % m.available_characters.length) 0) + m.available_characters.length)
        % SIZE_MOD % m.available_characters.length = stage_fn m s x := by
  have hN := h.2.1
  have hle := h.1.card_le
  have hph := phase_lt m s hN
  have hb := stage_offset_bounds h hs (Nat.mod_lt (x + phase m s) hN)
  unfold stage_fn
  generalize (m.scramblers.getD s []).getD ((x + phase m s) % m.available_characters.length) 0
    = off at hb ⊢
  generalize phase m s = ph at hph ⊢
  generalize m.available_characters.length = n at hN hle hx hph hb ⊢
  have e0 : toSize (x : Int) = x := toSize_natCast (by rw [size_mod_eq]; omega)
  have e1 : (x + ph + n) % SIZE_MOD = x + ph + n := by rw [size_mod_eq]; omega
  have e2 : (toSize ((x : Int) + off) + n) % SIZE_MOD = ((x : Int) + off + (n : Int)).toNat := by
    rw [toSize_eq, size_mod_eq]; omega
  have e3 : (x + toSize off + n) % SIZE_MOD = ((x : Int) + off + (n : Int)).toNat := by
    rw [toSize_eq, size_mod_eq]; omega
  rw [e0, e1, e2, e3, Nat.add_mod_right]
  exact ⟨rfl, rfl, rfl, rfl⟩

theorem forward_step_keyed {m : Enigma} (h : Keyed m) {s : Nat} (hs : s < m.scramblers_num)
    {x : Nat} (hx : x < m.available_characters.length) :
    m.forward_step s (x : Int) = .ok ((stage_fn m s x : Nat) : Int) := by
  have hN := h.2.1
  have hlen : s < m.scramblers.length := by rw [h.1.1]; exact hs
  have hrow : m.scramblers[s] = m.scramblers.getD s [] := (List.getD_eq_getElem _ _ hlen).symm
  obtain ⟨a1, _, a3, _⟩ := stage_arith h hs hx
  have hslot : (x + phase m s) % m.available_characters.length
      < (m.scramblers.getD s []).length := by
    rw [stage_row_length h hs]; exact Nat.mod_lt _ hN
  unfold Enigma.forward_step
  simp only [vec_at_of_lt hlen, ok_bind, calc_value m hs hN, hrow, a1, vec_at_getD hslot,
    pure_eq_ok, a3]

/-- The inner scan of the backward pass returns the preimage of its target under the
stage map. -/
theorem backward_scan_keyed {m : Enigma} (h : Keyed m) {s : Nat} (hs : s < m.scramblers_num)
    {x0 : Nat} (hx0 : x0 < m.available_characters.length) :
    ∀ (n j : Nat), j ≤ x0 → x0 < j + n → j + n ≤ m.available_characters.length →
      m.backward_scan s ((stage_fn m s x0 : Nat) : Int) n j = .ok (x0 : Int) := by
  have hN := h.2.1
  have hle := h.1.card_le
  have hlen : s < m.scramblers.length := by rw [h.1.1]; exact hs
  have hrow : m.scramblers[s] = m.scramblers.getD s [] := (List.getD_eq_getElem _ _ hlen).symm
  have ht : toSize ((stage_fn m s x0 : Nat) : Int) = stage_fn m s x0 :=
    toSize_natCast (by have := stage_fn_lt m s x0 hN; rw [size_mod_eq]; omega)
  intro n
  induction n with
  | zero => intro j h1 h2 _; omega
  | succ n ih =>
    intro j h1 h2 h3
    have hj : j < m.available_characters.length := by omega
    obtain ⟨_, a2, _, a4⟩ := stage_arith h hs hj
    have hslot : (j + phase m s) % m.available_characters.length
        < (m.scramblers.getD s []).length := by
      rw [stage_row_length h hs]; exact Nat.mod_lt _ hN
    unfold Enigma.backward_scan
    simp only [vec_at_of_lt hlen, ok_bind, calc_value m hs hN, hrow, a2, vec_at_getD hslot,
      pure_eq_ok, a4, ht]
    by_cases hc : stage_fn m s j = stage_fn m s x0
    · rw [if_pos hc, stage_fn_inj h hs hj hx0 hc]
    · rw [if_neg hc]
      have hne : j ≠ x0 := fun e => hc (by rw [e])
      exact ih (j + 1) (by omega) (by omega) (by omega)

theorem backward_step_keyed {m : Enigma} (h : Keyed m) {i : Nat} (h1 : 1 ≤ i)
    (hi : i ≤ m.scramblers_num) {x0 : Nat} (hx0 : x0 < m.available_characters.length) :
    m.backward_step i ((stage_fn m (m.scramblers_num - i) x0 : Nat) : Int) = .ok (x0 : Int) := by
  unfold Enigma.backward_step
  exact backward_scan_keyed h (by omega) hx0 _ 0 (Nat.zero_le _) (by omega) (by omega)

end stage_steps

/-! ## The passes of a keyed machine -/

section passes

theorem forLoop_succ_last {σ : Type} (body : Nat → σ → Except Fault σ) :
    ∀ (n lo : Nat) (s : σ),
      forLoop body (n + 1) lo s = (forLoop body n lo s >>= body (lo + n)) := by
  intro n
  induction n with
  | zero =>
    intro lo s
    simp only [forLoop, Nat.add_zero, ok_bind]
    cases body lo s <;> rfl
  | succ n ih =>
    intro lo s
    rw [forLoop]
    cases hb : body lo s with
    | error e => simp [forLoop, hb]
    | ok s1 =>
      rw [ok_bind, ih (lo + 1) s1]
      have : lo + 1 + n = lo + (n + 1) := by omega
      rw [this]
      conv_rhs => rw [forLoop, hb, ok_bind]

/-- Backward after forward through the first `n` stages is the identity. -/
theorem forward_backward {m : Enigma} (h : Keyed m) :
    ∀ (n : Nat), n ≤ m.scramblers_num → ∀ (x : Nat), x < m.available_characters.length →
      ∃ y, y < m.available_characters.length ∧
        forLoop (fun i ind => m.forward_step i ind) n 0 (x : Int) = .ok (y : Int) ∧
        forLoop (fun i ind => m.backward_step i ind) n (m.scramblers_num - n + 1) (y : Int)
          = .ok (x : Int) := by
  have hN := h.2.1
  intro n
  induction n with
  | zero => intro _ x hx; exact ⟨x, hx, rfl, rfl⟩
  | succ n ih =>
    intro hn x hx
    obtain ⟨y, hy, hf, hb⟩ := ih (by omega) x hx
    refine ⟨stage_fn m n y, stage_fn_lt m n y hN, ?_, ?_⟩
    · rw [forLoop_succ_last, hf, ok_bind, Nat.zero_add]
      exact forward_step_keyed h (by omega) hy
    · have hstep := backward_step_keyed h (show 1 ≤ m.scramblers_num - n by omega)
        (show m.scramblers_num - n ≤ m.scramblers_num by omega) hy
      have e1 : m.scramblers_num - (m.scramblers_num - n) = n := by omega
      have e2 : m.scramblers_num - (n + 1) + 1 = m.scramblers_num - n := by omega
      rw [e1] at hstep
      rw [forLoop, e2]
      simp only [hstep, ok_bind]
      exact hb

/-- Forward after backward through the first `n` stages is the identity. -/
theorem backward_forward {m : Enigma} (h : Keyed m) :
    ∀ (n : Nat), n ≤ m.scramblers_num → ∀ (t : Nat), t < m.available_characters.length →
      ∃ z, z < m.available_characters.length ∧
        forLoop (fun i ind => m.backward_step i ind) n (m.scramblers_num - n + 1) (t : Int)
          = .ok (z : Int) ∧
        forLoop (fun i ind => m.forward_step i ind) n 0 (z : Int) = .ok (t : Int) := by
  intro n
  induction n with
  | zero => intro _ t ht; exact ⟨t, ht, rfl, rfl⟩
  | succ n ih =>
    intro hn t ht
    obtain ⟨u, hu, hut⟩ := stage_fn_surj h (show n < m.scramblers_num by omega) ht
    obtain ⟨z, hz, hb, hf⟩ := ih (by omega) u hu
    refine ⟨z, hz, ?_, ?_⟩
    · have hstep := backward_step_keyed h (show 1 ≤ m.scramblers_num - n by omega)
        (show m.scramblers_num - n ≤ m.scramblers_num by omega) hu
      have e1 : m.scramblers_num - (m.scramblers_num - n) = n := by omega
      have e2 : m.scramblers_num - (n + 1) + 1 = m.scramblers_num - n := by omega
      rw [e1, hut] at hstep
      rw [forLoop, e2]
      simp only [hstep, ok_bind]
      exact hb
    · rw [forLoop_succ_last, hf, ok_bind, Nat.zero_add, forward_step_keyed h (by omega) hu, hut]

theorem vec_at_of_getElem? {α : Type} {v : List α} {i : Nat} {a : α} (h : v[i]? = some a) :
    vec_at v i = .ok a := by
  unfold vec_at
  rw [h]

/-- The index pass of a keyed machine is an involution of `[0, N)`. -/
theorem pass_involution {m : Enigma} (h : Keyed m) {x : Nat}
    (hx : x < m.available_characters.length) :
    ∃ z, z < m.available_characters.length ∧ m.pass (x : Int) = .ok (z : Int) ∧
      m.pass (z : Int) = .ok (x : Int) := by
  have hle := h.1.card_le
  obtain ⟨y, hy, hfy, hby⟩ := forward_backward h m.scramblers_num (Nat.le_refl _) x hx
  obtain ⟨r, hr, hyr, hry⟩ := h.2.2.2 y hy
  obtain ⟨z, hz, hbz, hfz⟩ := backward_forward h m.scramblers_num (Nat.le_refl _) r hr
  have e : m.scramblers_num - m.scramblers_num + 1 = 1 := by omega
  rw [e] at hby hbz
  have sy : toSize (y : Int) = y := toSize_natCast (by rw [size_mod_eq]; omega)
  have sr : toSize (r : Int) = r := toSize_natCast (by rw [size_mod_eq]; omega)
  refine ⟨z, hz, ?_, ?_⟩
  · unfold Enigma.pass
    simp only [hfy, ok_bind, sy, vec_at_of_getElem? hyr, hbz]
  · unfold Enigma.pass
    simp only [hfz, ok_bind, sr, vec_at_of_getElem? hry, hby]

theorem call_char_eq_of_pass {m : Enigma} {x z : Nat}
    (hx : x < m.available_characters.length) (hz : z < m.available_characters.length)
    (hnd : m.available_characters.Nodup) (hp : m.pass (x : Int) = .ok (z : Int)) :
    m.call_char (m.available_characters[x]) = .ok (some (m.available_characters[z]), m) := by
  unfold Enigma.call_char
  rw [if_neg (not_not.2 (List.getElem_mem hx))]
  simp only [List.indexOf_getElem hnd x hx, hp, ok_bind, pure_eq_ok]
  unfold Enigma.symbol_at
  rw [if_pos (Int.natCast_nonneg z)]
  simp only [Int.toNat_ofNat, deref_at_of_lt hz, ok_bind]

/-- The single-symbol transform of a keyed machine is an involution of the alphabet. -/
theorem keyed_call_char_involution {m : Enigma} (h : Keyed m) {ch : CChar}
    (hch : ch ∈ m.available_characters) :
    ∃ c, c ∈ m.available_characters ∧ m.call_char ch = .ok (some c, m) ∧
      m.call_char c = .ok (some ch, m) := by
  have hidx : m.available_characters.indexOf ch < m.available_characters.length :=
    List.indexOf_lt_length.2 hch
  obtain ⟨z, hz, hp1, hp2⟩ := pass_involution h hidx
  have h1 := call_char_eq_of_pass hidx hz h.1.nodup hp1
  have h2 := call_char_eq_of_pass hz hidx h.1.nodup hp2
  rw [List.getElem_indexOf hidx] at h1 h2
  exact ⟨_, List.getElem_mem hz, h1, h2⟩

end passes

/-! ## Machines built from a non-empty seed list -/

section keyed_machines

/-- The constructor, on a non-empty seed list and a non-empty alphabet with a
permutation-valued shuffle, returns a keyed machine. -/
theorem new_keyed (shuffle : Nat → List Int → List Int) (hperm : ShufflePerm shuffle)
    (k : Nat) (seeds : List Nat) (hs : seeds ≠ []) (startpos : Nat) (avach : AvaCh)
    (hN : SetStringVisitor avach ≠ []) :
    ∃ m, Enigma.new shuffle k seeds startpos avach = .ok m ∧ Keyed m ∧
      m.available_characters = SetStringVisitor avach ∧ m.scramblers_num = k ∧
      m.scramblers_pos = startpos % (SetStringVisitor avach).length := by
  have hle := visitor_length_le avach
  have hpos : 0 < (SetStringVisitor avach).length := List.length_pos.2 hN
  obtain ⟨refl, hrefl, hnew⟩ := new_seeded shuffle hperm k seeds hs startpos avach hN
  have hc : (seeded_ref_copy shuffle k seeds (SetStringVisitor avach).length).Perm
      (idl (SetStringVisitor avach).length) := hperm _ _
  obtain ⟨r', hr', hrlen, hspec⟩ := pair_refrector_spec _ _ hc hle
  rw [hrefl] at hr'
  cases hr'
  have hinv := paired_involution _ refl _ hc hspec
  have hrows : ∀ row ∈ seeded_scramblers shuffle k seeds (SetStringVisitor avach).length,
      ∃ P : List Int, P.Perm (idl (SetStringVisitor avach).length) ∧ row = offsets P := by
    intro row hrow
    unfold seeded_scramblers at hrow
    obtain ⟨a, _, rfl⟩ := List.mem_map.1 hrow
    exact ⟨_, hperm _ _, rfl⟩
  refine ⟨_, hnew, ⟨⟨?_, ?_, hrlen, ?_, visitor_pairwise avach⟩, hpos, hrows, ?_⟩, rfl, rfl, rfl⟩
  · simp [seeded_scramblers]
  · intro row hrow
    obtain ⟨P, hP, rfl⟩ := hrows row hrow
    rw [offsets_length, perm_length hP]
  · intro r hr
    obtain ⟨i, hi, rfl⟩ := List.getElem_of_mem hr
    obtain ⟨j', hj', h1, _⟩ := hinv i (by rw [← hrlen]; exact hi)
    rw [List.getElem?_eq_getElem hi] at h1
    rw [Option.some.inj h1]
    exact ⟨Int.natCast_nonneg j', by exact_mod_cast hj'⟩
  · intro j hj
    obtain ⟨j', hj', h1, h2, _⟩ := hinv j hj
    exact ⟨j', hj', h1, h2⟩

/-- C2. Single-symbol involution. The machine built from a non-empty seed list (the
shuffle returning a permutation) over a non-empty alphabet exists, and at every
position `p` the single-symbol transform sends every symbol `ch` of the alphabet to a
symbol `c` of the alphabet which the same transform at the same position sends back
to `ch`. -/
theorem call_char_involution (shuffle : Nat → List Int → List Int) (hperm : ShufflePerm shuffle)
    (k : Nat) (seeds : List Nat) (hs : seeds ≠ []) (startpos : Nat) (avach : AvaCh)
    (hN : SetStringVisitor avach ≠ []) :
    ∃ m, Enigma.new shuffle k seeds startpos avach = .ok m ∧
      ∀ (p : Nat) (ch : CChar), ch ∈ m.available_characters →
        ∃ c, c ∈ m.available_characters ∧
          (m.at_position p).call_char ch = .ok (some c, m.at_position p) ∧
          (m.at_position p).call_char c = .ok (some ch, m.at_position p) := by
  obtain ⟨m, hm, hk, _⟩ := new_keyed shuffle hperm k seeds hs startpos avach hN
  exact ⟨m, hm, fun p ch hch => keyed_call_char_involution (hk.keyed_at p) hch⟩

theorem call_char_involution_witness :
    ShufflePerm rot_shuffle ∧ ([42, 7] : List Nat) ≠ [] ∧
    SetStringVisitor (.str [65, 66, 67, 68, 69]) ≠ [] ∧
    ∃ m, Enigma.new rot_shuffle 2 [42, 7] 0 (.str [65, 66, 67, 68, 69]) = .ok m ∧
      ∀ (p : Nat) (ch : CChar), ch ∈ m.available_characters →
        ∃ c, c ∈ m.available_characters ∧
          (m.at_position p).call_char ch = .ok (some c, m.at_position p) ∧
          (m.at_position p).call_char c = .ok (some ch, m.at_position p) :=
  ⟨rot_shuffle_perm, by decide, by decide,
   call_char_involution rot_shuffle rot_shuffle_perm 2 [42, 7] (by decide) 0
     (.str [65, 66, 67, 68, 69]) (by decide)⟩

/-- C3. Bijectivity. For the machine built from a non-empty seed list (the shuffle
returning a permutation) with any number of stages over an alphabet of size `N ≥ 1`,
at every position `p` there is a bijection `f` of the index space `[0, N)` such that
the index pass maps `x` to `f x` and the single-symbol transform maps the symbol of
index `x` to the symbol of index `f x`. -/
theorem transform_bijective (shuffle : Nat → List Int → List Int) (hperm : ShufflePerm shuffle)
    (k : Nat) (seeds : List Nat) (hs : seeds ≠ []) (startpos : Nat) (avach : AvaCh)
    (hN : SetStringVisitor avach ≠ []) :
    ∃ m, Enigma.new shuffle k seeds startpos avach = .ok m ∧
      ∀ (p : Nat), ∃ f : Fin m.available_characters.length → Fin m.available_characters.length,
        Function.Bijective f ∧
        ∀ x : Fin m.available_characters.length,
          (m.at_position p).pass ((x : Nat) : Int) = .ok (((f x : Nat)) : Int) ∧
          (m.at_position p).call_char (m.available_characters[x])
            = .ok (some (m.available_characters[f x]), m.at_position p) := by
  obtain ⟨m, hm, hk, _⟩ := new_keyed shuffle hperm k seeds hs startpos avach hN
  refine ⟨m, hm, fun p => ?_⟩
  have hkp := hk.keyed_at p
  choose g hg using (fun x : Fin m.available_characters.length =>
    pass_involution hkp (show x.1 < (m.at_position p).available_characters.length from x.2))
  refine ⟨fun x => ⟨g x, (hg x).1⟩, ?_, fun x => ⟨(hg x).2.1, ?_⟩⟩
  · apply Function.Involutive.bijective
    intro x
    apply Fin.ext
    have h1 := (hg x).2.2
    have h2 := (hg ⟨g x, (hg x).1⟩).2.1
    have h3 : (Except.ok ((x : Nat) : Int) : Except Fault Int)
        = .ok ((g ⟨g x, (hg x).1⟩ : Nat) : Int) := h1.symm.trans h2
    have := Except.ok.inj h3
    exact_mod_cast this.symm
  · exact call_char_eq_of_pass (m := m.at_position p) x.2 (hg x).1 hkp.1.nodup (hg x).2.1

theorem transform_bijective_witness :
    ShufflePerm rot_shuffle ∧ ([42, 7] : List Nat) ≠ [] ∧
    SetStringVisitor (.str [65, 66, 67, 68, 69]) ≠ [] ∧
    ∃ m, Enigma.new rot_shuffle 2 [42, 7] 3 (.str [65, 66, 67, 68, 69]) = .ok m ∧
      ∀ (p : Nat), ∃ f : Fin m.available_characters.length → Fin m.available_characters.length,
        Function.Bijective f ∧
        ∀ x : Fin m.available_characters.length,
          (m.at_position p).pass ((x : Nat) : Int) = .ok (((f x : Nat)) : Int) ∧
          (m.at_position p).call_char (m.available_characters[x])
            = .ok (some (m.available_characters[f x]), m.at_position p) :=
  ⟨rot_shuffle_perm, by decide, by decide,
   transform_bijective rot_shuffle rot_shuffle_perm 2 [42, 7] (by decide) 3
     (.str [65, 66, 67, 68, 69]) (by decide)⟩

end keyed_machines

/-! ## Round trip of the sequence cipher -/

section round_trip

theorem call_string_cons (m : Enigma) (e : CChar) (rest : List CChar) (r : Option CChar)
    (out : List CChar) (m' : Enigma) (h1 : m.call_char e = .ok (r, m))
    (h2 : m.pre_increment.call_string rest = .ok (out, m')) :
    m.call_string (e :: rest) = .ok (r.getD e :: out, m') := by
  rw [Enigma.call_string]
  simp only [h1, ok_bind, h2, pure_eq_ok]

/-- A machine whose single-symbol transform is an involution at every position decodes
what it encodes. -/
theorem round_trip_of_involution : ∀ (S : List CChar) (m : Enigma),
    (∀ (q : Nat) (ch : CChar), ch ∈ m.available_characters →
      ∃ c, c ∈ m.available_characters ∧
        (m.at_position q).call_char ch = .ok (some c, m.at_position q) ∧
        (m.at_position q).call_char c = .ok (some ch, m.at_position q)) →
    ∃ out m', m.call_string S = .ok (out, m') ∧ m.call_string out = .ok (S, m') ∧
      out.length = S.length := by
  intro S
  induction S with
  | nil => intro m _; exact ⟨[], m, rfl, rfl, rfl⟩
  | cons e rest ih =>
    intro m hinv
    obtain ⟨out, m', ho1, ho2, hlen⟩ := ih m.pre_increment (fun q ch hch => hinv q ch hch)
    by_cases he : e ∈ m.available_characters
    · obtain ⟨c, _, hc1, hc2⟩ := hinv m.scramblers_pos e he
      have hc1' : m.call_char e = .ok (some c, m) := hc1
      have hc2' : m.call_char c = .ok (some e, m) := hc2
      exact ⟨c :: out, m', call_string_cons m e rest (some c) out m' hc1' ho1,
        call_string_cons m c out (some e) rest m' hc2' ho2, by simp [hlen]⟩
    · have hn := call_char_of_not_mem m he
      exact ⟨e :: out, m', call_string_cons m e rest none out m' hn ho1,
        call_string_cons m e out none rest m' hn ho2, by simp [hlen]⟩

/-- C1. Sequence round trip. For every configuration with a non-empty seed list (any
stage count, any start position, any non-empty alphabet; the shuffle returning a
permutation), the machine exists and, for every position `p` and every string `S`,
encoding `S` with the machine at position `p` returns a string `out` of the same
length, and encoding `out` with the machine of the same configuration at the same
position `p` returns `S` exactly. -/
theorem sequence_round_trip (shuffle : Nat → List Int → List Int) (hperm : ShufflePerm shuffle)
    (k : Nat) (seeds : List Nat) (hs : seeds ≠ []) (startpos : Nat) (avach : AvaCh)
    (hN : SetStringVisitor avach ≠ []) :
    ∃ m, Enigma.new shuffle k seeds startpos avach = .ok m ∧
      ∀ (p : Nat) (S : List CChar), ∃ out m',
        (m.at_position p).call_string S = .ok (out, m') ∧
        (m.at_position p).call_string out = .ok (S, m') ∧ out.length = S.length := by
  obtain ⟨m, hm, hk, _⟩ := new_keyed shuffle hperm k seeds hs startpos avach hN
  refine ⟨m, hm, fun p S => round_trip_of_involution S (m.at_position p) ?_⟩
  intro q ch hch
  exact keyed_call_char_involution (hk.keyed_at q) hch

theorem sequence_round_trip_witness :
    ShufflePerm rot_shuffle ∧ ([42] : List Nat) ≠ [] ∧
    SetStringVisitor (.str [65, 66, 67, 68]) ≠ [] ∧
    (∃ m, Enigma.new rot_shuffle 1 [42] 0 (.str [65, 66, 67, 68]) = .ok m ∧
      ∀ (p : Nat) (S : List CChar), ∃ out m',
        (m.at_position p).call_string S = .ok (out, m') ∧
        (m.at_position p).call_string out = .ok (S, m') ∧ out.length = S.length) ∧
    Enigma.new rot_shuffle 1 [42] 0 (.str [65, 66, 67, 68]) = .ok sample_machine ∧
    sample_machine.call_string [65, 65, 66, 66]
      = .ok ([66, 66, 65, 65], sample_machine.at_position 4) ∧
    sample_machine.call_string [66, 66, 65, 65]
      = .ok ([65, 65, 66, 66], sample_machine.at_position 4) :=
  ⟨rot_shuffle_perm, by decide, by decide,
   sequence_round_trip rot_shuffle rot_shuffle_perm 1 [42] (by decide) 0
     (.str [65, 66, 67, 68]) (by decide),
   by decide, by decide, by decide⟩

end round_trip

/-! ## Every constructed machine is well-formed -/

section constructed

theorem new_empty_alphabet (shuffle : Nat → List Int → List Int) (k : Nat) (seeds : List Nat)
    (startpos : Nat) (avach : AvaCh) (hN : SetStringVisitor avach = []) :
    Enigma.new shuffle k seeds startpos avach = .error .division_by_zero := by
  unfold Enigma.new
  simp [hN]

theorem length_iota (n : Nat) : (iota n).length = n := by simp [iota]

/-- Whatever the seed list, a machine returned by the constructor (the shuffle returning
a permutation) is well-formed, over a non-empty alphabet, with its position counter
below the alphabet size. -/
theorem new_wf (shuffle : Nat → List Int → List Int) (hperm : ShufflePerm shuffle)
    (k : Nat) (seeds : List Nat) (startpos : Nat) (avach : AvaCh) (m : Enigma)
    (h : Enigma.new shuffle k seeds startpos avach = .ok m) :
    m.WF ∧ 0 < m.available_characters.length ∧
      m.scramblers_pos < m.available_characters.length ∧ m.scramblers_pos < SIZE_MOD := by
  by_cases hN : SetStringVisitor avach = []
  · rw [new_empty_alphabet shuffle k seeds startpos avach hN] at h
    cases h
  · have hle := visitor_length_le avach
    have hpos : 0 < (SetStringVisitor avach).length := List.length_pos.2 hN
    by_cases hs : seeds = []
    · subst hs
      rw [new_zero_seeds shuffle k startpos avach hN] at h
      cases h
      refine ⟨⟨by simp, ?_, length_iota _, ?_, visitor_pairwise avach⟩, hpos,
        Nat.mod_lt _ hpos, ?_⟩
      · intro row hrow
        rw [List.eq_of_mem_replicate hrow]
        exact length_iota _
      · intro r hr
        have hr' : r ∈ iota (SetStringVisitor avach).length := hr
        rw [iota_eq_idl hle] at hr'
        exact mem_idl.1 hr'
      · have : startpos % (SetStringVisitor avach).length < (SetStringVisitor avach).length :=
          Nat.mod_lt _ hpos
        show startpos % (SetStringVisitor avach).length < SIZE_MOD
        rw [size_mod_eq]; omega
    · obtain ⟨m', hm', hk, hA, _, hp⟩ := new_keyed shuffle hperm k seeds hs startpos avach hN
      have hmm : m' = m := Except.ok.inj (hm'.symm.trans h)
      rw [← hmm]
      have hlt : m'.scramblers_pos < m'.available_characters.length := by
        rw [hp, hA]; exact Nat.mod_lt _ hpos
      have hle' : m'.available_characters.length ≤ 256 := hk.1.card_le
      exact ⟨hk.1, hk.2.1, hlt, by rw [size_mod_eq]; omega⟩

end constructed

section constructed_total

/-- The constructor returns a machine for every seed list (empty or not), stage count
and start position over a non-empty alphabet, the shuffle returning a permutation. -/
theorem new_total (shuffle : Nat → List Int → List Int) (hperm : ShufflePerm shuffle)
    (k : Nat) (seeds : List Nat) (startpos : Nat) (avach : AvaCh)
    (hN : SetStringVisitor avach ≠ []) :
    ∃ m, Enigma.new shuffle k seeds startpos avach = .ok m ∧ m.WF ∧
      m.available_characters = SetStringVisitor avach ∧ m.scramblers_num = k ∧
      m.scramblers_pos = startpos % (SetStringVisitor avach).length := by
  by_cases hs : seeds = []
  · subst hs
    have hnew := new_zero_seeds shuffle k startpos avach hN
    exact ⟨_, hnew, (new_wf shuffle hperm k [] startpos avach _ hnew).1, rfl, rfl, rfl⟩
  · obtain ⟨m, hm, hk, hA, hk', hp⟩ := new_keyed shuffle hperm k seeds hs startpos avach hN
    exact ⟨m, hm, hk.1, hA, hk', hp⟩

end constructed_total

/-! ## Absent results, advance, start position, empty alphabet -/

section lookup_and_advance

theorem call_char_none_not_mem (m : Enigma) (ch : CChar) (m' : Enigma)
    (h : m.call_char ch = .ok (none, m')) : ch ∉ m.available_characters := by
  intro hmem
  unfold Enigma.call_char at h
  rw [if_neg (not_not.2 hmem)] at h
  obtain ⟨a, _, h⟩ := bind_eq_ok.1 h
  obtain ⟨b, _, h⟩ := bind_eq_ok.1 h
  cases h

/-- C11. A symbol outside the alphabet is reported as an absent result, never as a
wrong symbol: on every machine the single-symbol transform returns the empty optional
when `ch` is not in the alphabet, it returns the empty optional only then, and on
every well-formed machine it returns a value (a symbol of the alphabet) for every `ch`
in the alphabet. -/
theorem call_char_absent_iff (m : Enigma) (ch : CChar) :
    (ch ∉ m.available_characters → m.call_char ch = .ok (none, m)) ∧
    (∀ m', m.call_char ch = .ok (none, m') → ch ∉ m.available_characters) ∧
    (m.WF → ch ∈ m.available_characters →
      ∃ c, m.call_char ch = .ok (some c, m) ∧ c ∈ m.available_characters) :=
  ⟨fun h => call_char_of_not_mem m h, fun m' h => call_char_none_not_mem m ch m' h,
   fun hwf hch => call_char_of_mem hwf hch⟩

theorem call_char_absent_iff_witness :
    ((32 : CChar) ∉ sample_machine.available_characters ∧
      sample_machine.call_char 32 = .ok (none, sample_machine)) ∧
    (sample_machine.call_char 32 = .ok (none, sample_machine) ∧
      (32 : CChar) ∉ sample_machine.available_characters) ∧
    (sample_machine.WF ∧ (65 : CChar) ∈ sample_machine.available_characters ∧
      ∃ c, sample_machine.call_char 65 = .ok (some c, sample_machine) ∧
        c ∈ sample_machine.available_characters) :=
  ⟨⟨by decide, (call_char_absent_iff sample_machine 32).1 (by decide)⟩,
   ⟨by decide, (call_char_absent_iff sample_machine 32).2.1 sample_machine (by decide)⟩,
   ⟨by decide, by decide, (call_char_absent_iff sample_machine 65).2.2 (by decide) (by decide)⟩⟩

/-- C12. Advance steps the position by one and nothing else. Both `operator++()` and
`operator++(int)` leave the machine with position counter `pos + 1` computed in
`size_t` (equal to `pos + 1` whenever that does not wrap the machine word) and with
stage count, alphabet, stage arrays and reflector unchanged; the machine returned by
either form is that advanced machine. -/
theorem advance_steps_position (m : Enigma) :
    m.pre_increment = m.at_position ((m.scramblers_pos + 1) % SIZE_MOD) ∧
    m.post_increment.2 = m.at_position ((m.scramblers_pos + 1) % SIZE_MOD) ∧
    m.post_increment.1 = m.at_position ((m.scramblers_pos + 1) % SIZE_MOD) ∧
    (m.at_position ((m.scramblers_pos + 1) % SIZE_MOD)).scramblers_num = m.scramblers_num ∧
    (m.at_position ((m.scramblers_pos + 1) % SIZE_MOD)).available_characters
      = m.available_characters ∧
    (m.at_position ((m.scramblers_pos + 1) % SIZE_MOD)).scramblers = m.scramblers ∧
    (m.at_position ((m.scramblers_pos + 1) % SIZE_MOD)).refrector = m.refrector ∧
    (m.scramblers_pos + 1 < SIZE_MOD →
      m.pre_increment.scramblers_pos = m.scramblers_pos + 1 ∧
      m.post_increment.2.scramblers_pos = m.scramblers_pos + 1 ∧
      m.post_increment.1.scramblers_pos = m.scramblers_pos + 1) := by
  refine ⟨rfl, rfl, rfl, rfl, rfl, rfl, rfl, fun h => ?_⟩
  have e : (m.scramblers_pos + 1) % SIZE_MOD = m.scramblers_pos + 1 := Nat.mod_eq_of_lt h
  exact ⟨e, e, e⟩

theorem advance_steps_position_witness :
    (sample_machine.at_position 7).scramblers_pos + 1 < SIZE_MOD ∧
    (sample_machine.at_position 7).pre_increment.scramblers_pos = 8 ∧
    (sample_machine.at_position 7).post_increment.2.scramblers_pos = 8 ∧
    (sample_machine.at_position 7).post_increment.1.scramblers_pos = 8 :=
  ⟨by decide, (advance_steps_position (sample_machine.at_position 7)).2.2.2.2.2.2.2 (by decide)⟩

/-- C13. The start position is reduced modulo `N`. For every seed list, stage count and
start position `s` over an alphabet of size `N ≥ 1` (the shuffle returning a
permutation), the constructed machine has position counter `s mod N`; on it stage 0
has phase `s mod N` and every stage `1 ≤ i < scramblers_num` has phase 0. -/
theorem start_position_reduced (shuffle : Nat → List Int → List Int)
    (hperm : ShufflePerm shuffle) (k : Nat) (seeds : List Nat) (startpos : Nat)
    (avach : AvaCh) (hN : SetStringVisitor avach ≠ []) :
    ∃ m, Enigma.new shuffle k seeds startpos avach = .ok m ∧
      m.scramblers_pos = startpos % (SetStringVisitor avach).length ∧
      (0 < k → m.calc_scrambler_position 0
        = .ok (some (startpos % (SetStringVisitor avach).length))) ∧
      (∀ i, 1 ≤ i → i < k → m.calc_scrambler_position i = .ok (some 0)) := by
  obtain ⟨m, hm, _, hA, hk, hp⟩ := new_total shuffle hperm k seeds startpos avach hN
  have hpos : 0 < (SetStringVisitor avach).length := List.length_pos.2 hN
  have hlen : m.available_characters.length = (SetStringVisitor avach).length := by rw [hA]
  refine ⟨m, hm, hp, fun h0 => ?_, fun i h1 hi => ?_⟩
  · rw [calc_of_lt m (by omega) (by omega), hlen, hp]
    simp
  · rw [calc_of_lt m (by omega) (by omega), hlen, hp]
    have hlt : startpos % (SetStringVisitor avach).length < (SetStringVisitor avach).length ^ i :=
      Nat.lt_of_lt_of_le (Nat.mod_lt _ hpos) (Nat.le_self_pow (by omega) _)
    rw [Nat.div_eq_of_lt hlt, Nat.zero_mod]

theorem start_position_reduced_witness :
    ShufflePerm rot_shuffle ∧ SetStringVisitor (.str [65, 66, 67, 68]) ≠ [] ∧
    ∃ m, Enigma.new rot_shuffle 3 [42] 10 (.str [65, 66, 67, 68]) = .ok m ∧
      m.scramblers_pos = 10 % (SetStringVisitor (.str [65, 66, 67, 68])).length ∧
      (0 < 3 → m.calc_scrambler_position 0
        = .ok (some (10 % (SetStringVisitor (.str [65, 66, 67, 68])).length))) ∧
      (∀ i, 1 ≤ i → i < 3 → m.calc_scrambler_position i = .ok (some 0)) :=
  ⟨rot_shuffle_perm, by decide,
   start_position_reduced rot_shuffle rot_shuffle_perm 3 [42] 10 (.str [65, 66, 67, 68])
     (by decide)⟩

/-- C15 (the code on an empty alphabet). Whatever the seeds, the stage count and the
start position, the constructor given an empty string or an empty set takes
`startpos % 0` in its member initialiser: a modulo by zero, which is undefined
behaviour, not a checked failure. -/
theorem empty_alphabet_modulo_by_zero (shuffle : Nat → List Int → List Int) (k : Nat)
    (seeds : List Nat) (startpos : Nat) :
    Enigma.new shuffle k seeds startpos (.str []) = .error .division_by_zero ∧
    Enigma.new shuffle k seeds startpos (.set ⟨[], List.Pairwise.nil⟩)
      = .error .division_by_zero :=
  ⟨new_empty_alphabet shuffle k seeds startpos (.str []) rfl,
   new_empty_alphabet shuffle k seeds startpos (.set ⟨[], List.Pairwise.nil⟩) rfl⟩

end lookup_and_advance

/-! ## Alphabet normalisation -/

section normalisation

theorem mem_foldl_set_insert (c : CChar) : ∀ (s acc : List CChar),
    c ∈ s.foldl (fun acc c => set_insert c acc) acc ↔ c ∈ acc ∨ c ∈ s := by
  intro s
  induction s with
  | nil => intro acc; simp
  | cons x xs ih =>
    intro acc
    rw [List.foldl_cons, ih, mem_set_insert, List.mem_cons]
    tauto

theorem mem_set_of_range (c : CChar) (s : List CChar) : c ∈ set_of_range s ↔ c ∈ s := by
  unfold set_of_range
  rw [mem_foldl_set_insert]
  simp

theorem set_insert_append (c : CChar) : ∀ (acc : List CChar), (∀ x ∈ acc, char_lt x c) →
    set_insert c acc = acc ++ [c] := by
  intro acc
  induction acc with
  | nil => intro _; rfl
  | cons x xs ih =>
    intro h
    have hx : char_lt x c := h x (List.mem_cons_self x xs)
    unfold set_insert
    rw [if_neg (char_lt_asymm hx), if_neg (fun e => (char_lt_ne hx) e.symm),
      ih (fun y hy => h y (List.mem_cons_of_mem x hy))]
    rfl

theorem foldl_set_insert_ascending : ∀ (s acc : List CChar),
    (acc ++ s).Pairwise char_lt → s.foldl (fun acc c => set_insert c acc) acc = acc ++ s := by
  intro s
  induction s with
  | nil => intro acc _; simp
  | cons x xs ih =>
    intro acc h
    have hx : ∀ y ∈ acc, char_lt y x := by
      intro y hy
      exact (List.pairwise_append.1 h).2.2 y hy x (List.mem_cons_self x xs)
    rw [List.foldl_cons, set_insert_append x acc hx, ih (acc ++ [x]) (by simpa using h)]
    simp

/-- Normalising the ascending listing of a set gives it back. -/
theorem set_of_range_ascending (l : List CChar) (h : l.Pairwise char_lt) :
    set_of_range l = l := by
  unfold set_of_range
  rw [foldl_set_insert_ascending l [] (by simpa using h)]
  simp

/-- In a list strictly ascending in `char` order the index of an element is the number
of elements below it. -/
theorem indexOf_ascending (c : CChar) : ∀ (l : List CChar), l.Pairwise char_lt → c ∈ l →
    l.indexOf c = (l.filter (fun d => char_lt d c)).length := by
  intro l
  induction l with
  | nil => intro _ h; cases h
  | cons x xs ih =>
    intro hp hc
    rw [List.pairwise_cons] at hp
    by_cases hcx : x = c
    · subst hcx
      have hnone : xs.filter (fun d => char_lt d x) = [] := by
        rw [List.filter_eq_nil_iff]
        intro y hy
        have := hp.1 y hy
        simpa using char_lt_asymm this
      have hxx : ¬ char_lt x x := fun h => char_lt_ne h rfl
      rw [List.filter_cons_of_neg (by simpa using hxx), hnone]
      simp
    · have hmem : c ∈ xs := by
        rcases List.mem_cons.1 hc with h | h
        · exact absurd h.symm hcx
        · exact h
      have hlt : char_lt x c := hp.1 c hmem
      rw [List.indexOf_cons_ne _ hcx, ih hp.2 hmem, List.filter_cons_of_pos (by simpa using hlt)]
      simp

theorem filter_length_eq_card (l s : List CChar) (hnd : l.Nodup) (hmem : ∀ c, c ∈ l ↔ c ∈ s)
    (c : CChar) :
    (l.filter (fun d => char_lt d c)).length = (s.toFinset.filter (fun d => char_lt d c)).card := by
  have h1 : (l.filter (fun d => char_lt d c)).length = (l.filter (fun d => char_lt d c)).toFinset.card :=
    (List.toFinset_card_of_nodup (hnd.filter _)).symm
  rw [h1]
  congr 1
  ext d
  simp [hmem]

/-- C16. Alphabet normalisation. The alphabet derived from a string `str` holds exactly
the characters occurring in `str`, each once, in strictly ascending character order
(the order `std::less<char>` of `char` values), and the index of a symbol is its rank:
the number of distinct characters of `str` below it in that order. The alphabet
derived from a set is that set unchanged, and normalising an alphabet again (as a
string) gives the same alphabet. -/
theorem alphabet_normalised (str : List CChar) (S : CharSet) :
    (∀ c, c ∈ SetStringVisitor (.str str) ↔ c ∈ str) ∧
    (SetStringVisitor (.str str)).Nodup ∧
    (SetStringVisitor (.str str)).Pairwise char_lt ∧
    (∀ c, c ∈ str → (SetStringVisitor (.str str)).indexOf c
      = (str.toFinset.filter (fun d => char_lt d c)).card) ∧
    SetStringVisitor (.set S) = S.elems ∧
    SetStringVisitor (.str (SetStringVisitor (.str str))) = SetStringVisitor (.str str) ∧
    SetStringVisitor (.str (SetStringVisitor (.set S))) = SetStringVisitor (.set S) := by
  have hp : (set_of_range str).Pairwise char_lt := set_of_range_pairwise str
  have hnd : (set_of_range str).Nodup := hp.imp (fun hab => char_lt_ne hab)
  refine ⟨fun c => mem_set_of_range c str, hnd, hp, fun c hc => ?_, rfl,
    set_of_range_ascending _ hp, set_of_range_ascending _ S.ascending⟩
  show (set_of_range str).indexOf c = _
  rw [indexOf_ascending c _ hp ((mem_set_of_range c str).2 hc),
    filter_length_eq_card _ str hnd (fun d => mem_set_of_range d str)]

theorem alphabet_normalised_witness :
    SetStringVisitor (.str [67, 65, 233, 67, 66, 65]) = [233, 65, 66, 67] ∧
    SetStringVisitor (.str [122, 65, 128, 255]) = [128, 255, 65, 122] ∧
    (65 : CChar) ∈ [(67 : CChar), 65, 233, 67, 66, 65] ∧
    (SetStringVisitor (.str [67, 65, 233, 67, 66, 65])).indexOf (65 : CChar) = 1 ∧
    (SetStringVisitor (.str [67, 65, 233, 67, 66, 65])).indexOf (65 : CChar)
      = (([(67 : CChar), 65, 233, 67, 66, 65]).toFinset.filter
          (fun d => char_lt d 65)).card :=
  ⟨by decide, by decide, by decide, by decide,
   (alphabet_normalised [67, 65, 233, 67, 66, 65] ⟨[], List.Pairwise.nil⟩).2.2.2.1 65
     (by decide)⟩

end normalisation

/-! ## What the constructor stores -/

section stored_arrays

theorem seeded_scramblers_getElem? (shuffle : Nat → List Int → List Int) (k : Nat)
    (seeds : List Nat) (n : Nat) {i : Nat} (hi : i < k) :
    (seeded_scramblers shuffle k seeds n)[i]?
      = some (offsets (shuffle (seeds.getD (i % seeds.length) 0) (idl n))) := by
  simp [seeded_scramblers, List.getElem?_map, List.getElem?_range hi]

theorem offsets_getElem? {P : List Int} {s : Nat} (h : s < P.length) :
    (offsets P)[s]? = some (P.getD s 0 - (s : Int)) := by
  rw [getElem?_eq_some_getD (by rw [offsets_length]; exact h), offsets_getD h]

theorem offsets_add_index (P : List Int) :
    List.map (fun s : Nat => (offsets P).getD s 0 + (s : Int)) (List.range P.length) = P := by
  have h : List.map (fun s : Nat => (offsets P).getD s 0 + (s : Int)) (List.range P.length)
      = List.map (fun s : Nat => P.getD s 0) (List.range P.length) := by
    apply List.map_congr_left
    intro s hs
    rw [offsets_getD (List.mem_range.1 hs)]
    omega
  rw [h, map_getD_range]

/-- C14. Stage arrays store permutation offsets. For the machine built from a non-empty
seed list with `k` stages over an alphabet of size `N ≥ 1` (the shuffle returning a
permutation), every stage `i < k` has a row of length `N` whose slot `s` holds
`P_i[s] - s`, where `P_i` is the shuffle of the identity sequence under
`seeds[i mod len(seeds)]`; and `s ↦ row[s] + s` is a permutation of `[0, N)`. -/
theorem stage_arrays_are_offsets (shuffle : Nat → List Int → List Int)
    (hperm : ShufflePerm shuffle) (k : Nat) (seeds : List Nat) (hs : seeds ≠ [])
    (startpos : Nat) (avach : AvaCh) (hN : SetStringVisitor avach ≠ []) :
    ∃ m, Enigma.new shuffle k seeds startpos avach = .ok m ∧ m.scramblers.length = k ∧
      ∀ i, i < k → ∃ row, m.scramblers[i]? = some row ∧
        row.length = (SetStringVisitor avach).length ∧
        (∀ s, s < (SetStringVisitor avach).length → row[s]? = some
          ((shuffle (seeds.getD (i % seeds.length) 0)
            (iota (SetStringVisitor avach).length)).getD s 0 - (s : Int))) ∧
        (List.map (fun s : Nat => row.getD s 0 + (s : Int))
          (List.range (SetStringVisitor avach).length)).Perm
          (idl (SetStringVisitor avach).length) := by
  have hle := visitor_length_le avach
  obtain ⟨refl, _, hnew⟩ := new_seeded shuffle hperm k seeds hs startpos avach hN
  refine ⟨_, hnew, by simp [seeded_scramblers], fun i hi => ?_⟩
  have hP : (shuffle (seeds.getD (i % seeds.length) 0)
      (idl (SetStringVisitor avach).length)).Perm (idl (SetStringVisitor avach).length) :=
    hperm _ _
  have hlen := perm_length hP
  refine ⟨_, seeded_scramblers_getElem? shuffle k seeds _ hi, ?_, fun s hs' => ?_, ?_⟩
  · rw [offsets_length, hlen]
  · rw [iota_eq_idl hle]
    exact offsets_getElem? (by rw [hlen]; exact hs')
  · have := offsets_add_index (shuffle (seeds.getD (i % seeds.length) 0)
      (idl (SetStringVisitor avach).length))
    rw [hlen] at this
    rw [this]
    exact hP

theorem stage_arrays_are_offsets_witness :
    ShufflePerm rot_shuffle ∧ ([42, 7] : List Nat) ≠ [] ∧
    SetStringVisitor (.str [65, 66, 67, 68, 69]) ≠ [] ∧
    ∃ m, Enigma.new rot_shuffle 3 [42, 7] 0 (.str [65, 66, 67, 68, 69]) = .ok m ∧
      m.scramblers.length = 3 ∧
      ∀ i, i < 3 → ∃ row, m.scramblers[i]? = some row ∧
        row.length = (SetStringVisitor (.str [65, 66, 67, 68, 69])).length ∧
        (∀ s, s < (SetStringVisitor (.str [65, 66, 67, 68, 69])).length → row[s]? = some
          ((rot_shuffle (([42, 7] : List Nat).getD (i % ([42, 7] : List Nat).length) 0)
            (iota (SetStringVisitor (.str [65, 66, 67, 68, 69])).length)).getD s 0
              - (s : Int))) ∧
        (List.map (fun s : Nat => row.getD s 0 + (s : Int))
          (List.range (SetStringVisitor (.str [65, 66, 67, 68, 69])).length)).Perm
          (idl (SetStringVisitor (.str [65, 66, 67, 68, 69])).length) :=
  ⟨rot_shuffle_perm, by decide, by decide,
   stage_arrays_are_offsets rot_shuffle rot_shuffle_perm 3 [42, 7] (by decide) 0
     (.str [65, 66, 67, 68, 69]) (by decide)⟩

/-- C20. Seeds are reused cyclically. For the machine built from a non-empty seed list
with `k` stages (the shuffle returning a permutation), stage `i` is the offset table of
the shuffle under `seeds[i mod m]` and the reflector is the pairing of the shuffle under
`seeds[k mod m]`; two stages whose seeds agree have equal arrays; with a single seed
all stages are equal and the reflector pairs consecutive entries of the very
permutation `P` the stages were built from. -/
theorem seeds_reused_cyclically (shuffle : Nat → List Int → List Int)
    (hperm : ShufflePerm shuffle) (k : Nat) (seeds : List Nat) (hs : seeds ≠ [])
    (startpos : Nat) (avach : AvaCh) (hN : SetStringVisitor avach ≠ []) :
    ∃ m, Enigma.new shuffle k seeds startpos avach = .ok m ∧
      (∀ i, i < k → m.scramblers[i]? = some (offsets
        (shuffle (seeds.getD (i % seeds.length) 0) (iota (SetStringVisitor avach).length)))) ∧
      Enigma.pair_refrector
        (shuffle (seeds.getD (k % seeds.length) 0) (iota (SetStringVisitor avach).length))
        (iota (SetStringVisitor avach).length) = .ok m.refrector ∧
      (∀ i j, i < k → j < k →
        seeds.getD (i % seeds.length) 0 = seeds.getD (j % seeds.length) 0 →
        m.scramblers[i]? = m.scramblers[j]?) ∧
      (seeds.length = 1 →
        (∀ i, i < k → m.scramblers[i]? = some (offsets
          (shuffle (seeds.getD 0 0) (iota (SetStringVisitor avach).length)))) ∧
        (∀ t, t < (SetStringVisitor avach).length / 2 →
          m.refrector[((shuffle (seeds.getD 0 0)
              (iota (SetStringVisitor avach).length)).getD (2 * t) 0).toNat]?
            = some ((shuffle (seeds.getD 0 0)
              (iota (SetStringVisitor avach).length)).getD (2 * t + 1) 0) ∧
          m.refrector[((shuffle (seeds.getD 0 0)
              (iota (SetStringVisitor avach).length)).getD (2 * t + 1) 0).toNat]?
            = some ((shuffle (seeds.getD 0 0)
              (iota (SetStringVisitor avach).length)).getD (2 * t) 0))) := by
  have hle := visitor_length_le avach
  obtain ⟨refl, hrefl, hnew⟩ := new_seeded shuffle hperm k seeds hs startpos avach hN
  have hc : (seeded_ref_copy shuffle k seeds (SetStringVisitor avach).length).Perm
      (idl (SetStringVisitor avach).length) := hperm _ _
  obtain ⟨r', hr', _, hspec⟩ := pair_refrector_spec _ _ hc hle
  rw [hrefl] at hr'
  cases hr'
  rw [iota_eq_idl hle]
  refine ⟨_, hnew, fun i hi => seeded_scramblers_getElem? shuffle k seeds _ hi, hrefl,
    fun i j hi hj hij => ?_, fun h1 => ⟨fun i hi => ?_, fun t ht => ?_⟩⟩
  · show (seeded_scramblers shuffle k seeds _)[i]? = (seeded_scramblers shuffle k seeds _)[j]?
    rw [seeded_scramblers_getElem? shuffle k seeds _ hi,
      seeded_scramblers_getElem? shuffle k seeds _ hj, hij]
  · show (seeded_scramblers shuffle k seeds _)[i]? = _
    rw [seeded_scramblers_getElem? shuffle k seeds _ hi, h1, Nat.mod_one]
  · have hk0 : k % seeds.length = 0 := by rw [h1, Nat.mod_one]
    unfold seeded_ref_copy at hspec
    rw [hk0] at hspec
    have ha := hspec (2 * t) (by omega)
    have hb := hspec (2 * t + 1) (by omega)
    rw [if_pos (by omega), partner_even] at ha
    rw [if_pos (by omega), partner_odd] at hb
    exact ⟨ha, hb⟩

theorem seeds_reused_cyclically_witness :
    ShufflePerm rot_shuffle ∧ ([42] : List Nat) ≠ [] ∧
    SetStringVisitor (.str [65, 66, 67, 68]) ≠ [] ∧ ([42] : List Nat).length = 1 ∧
    ∃ m, Enigma.new rot_shuffle 2 [42] 0 (.str [65, 66, 67, 68]) = .ok m ∧
      (∀ i, i < 2 → m.scramblers[i]? = some (offsets
        (rot_shuffle (([42] : List Nat).getD (i % ([42] : List Nat).length) 0)
          (iota (SetStringVisitor (.str [65, 66, 67, 68])).length)))) ∧
      Enigma.pair_refrector
        (rot_shuffle (([42] : List Nat).getD (2 % ([42] : List Nat).length) 0)
          (iota (SetStringVisitor (.str [65, 66, 67, 68])).length))
        (iota (SetStringVisitor (.str [65, 66, 67, 68])).length) = .ok m.refrector ∧
      (∀ i j, i < 2 → j < 2 →
        ([42] : List Nat).getD (i % ([42] : List Nat).length) 0
          = ([42] : List Nat).getD (j % ([42] : List Nat).length) 0 →
        m.scramblers[i]? = m.scramblers[j]?) ∧
      (([42] : List Nat).length = 1 →
        (∀ i, i < 2 → m.scramblers[i]? = some (offsets
          (rot_shuffle (([42] : List Nat).getD 0 0)
            (iota (SetStringVisitor (.str [65, 66, 67, 68])).length)))) ∧
        (∀ t, t < (SetStringVisitor (.str [65, 66, 67, 68])).length / 2 →
          m.refrector[((rot_shuffle (([42] : List Nat).getD 0 0)
              (iota (SetStringVisitor (.str [65, 66, 67, 68])).length)).getD (2 * t) 0).toNat]?
            = some ((rot_shuffle (([42] : List Nat).getD 0 0)
              (iota (SetStringVisitor (.str [65, 66, 67, 68])).length)).getD (2 * t + 1) 0) ∧
          m.refrector[((rot_shuffle (([42] : List Nat).getD 0 0)
              (iota (SetStringVisitor (.str [65, 66, 67, 68])).length)).getD (2 * t + 1) 0).toNat]?
            = some ((rot_shuffle (([42] : List Nat).getD 0 0)
              (iota (SetStringVisitor (.str [65, 66, 67, 68])).length)).getD (2 * t) 0))) :=
  ⟨rot_shuffle_perm, by decide, by decide, by decide,
   seeds_reused_cyclically rot_shuffle rot_shuffle_perm 2 [42] (by decide) 0
     (.str [65, 66, 67, 68]) (by decide)⟩

end stored_arrays

/-! ## Backward search and forward stage -/

section backward_inverse

/-- The stage map is the expression of the source read in the integers:
`(j + scramblers[s][(j + phase) mod N]) mod N`. -/
theorem stage_fn_emod {m : Enigma} (h : Keyed m) {s : Nat} (hs : s < m.scramblers_num)
    (j : Nat) :
    ((stage_fn m s j : Nat) : Int) = ((j : Int) + (m.scramblers.getD s []).getD
      ((j + phase m s) % m.available_characters.length) 0)
        % (m.available_characters.length : Int) := by
  have hN := h.2.1
  have hb := stage_offset_bounds h hs (Nat.mod_lt (j + phase m s) hN)
  unfold stage_fn
  generalize (m.scramblers.getD s []).getD ((j + phase m s) % m.available_characters.length) 0
    = off at hb ⊢
  have hnn : 0 ≤ (j : Int) + off + (m.available_characters.length : Int) := by omega
  rw [Int.natCast_mod, Int.toNat_of_nonneg hnn, Int.add_emod_self]

theorem backward_step_stage {m : Enigma} (h : Keyed m) {s : Nat} (hs : s < m.scramblers_num)
    {x0 : Nat} (hx0 : x0 < m.available_characters.length) :
    m.backward_step (m.scramblers_num - s) ((stage_fn m s x0 : Nat) : Int) = .ok (x0 : Int) := by
  have := backward_step_keyed h (show 1 ≤ m.scramblers_num - s by omega)
    (show m.scramblers_num - s ≤ m.scramblers_num by omega) hx0
  have e : m.scramblers_num - (m.scramblers_num - s) = s := by omega
  rwa [e] at this

/-- C17. Backward search is the exact inverse of the forward stage. On the machine built
from a non-empty seed list (the shuffle returning a permutation), at every position
and for every stage `i` and target `t` in `[0, N)`, there is exactly one `j` in
`[0, N)` with `(j + scramblers[i][(j + phase_i) mod N]) mod N = t`, the linear scan of
the backward pass returns that `j`, and the backward stage applied to the result of
the forward stage on any `idx` in `[0, N)` returns `idx`. -/
theorem backward_inverts_forward (shuffle : Nat → List Int → List Int)
    (hperm : ShufflePerm shuffle) (k : Nat) (seeds : List Nat) (hs : seeds ≠ [])
    (startpos : Nat) (avach : AvaCh) (hN : SetStringVisitor avach ≠ []) :
    ∃ m, Enigma.new shuffle k seeds startpos avach = .ok m ∧
      ∀ (p i : Nat), i < m.scramblers_num →
        (m.at_position p).calc_scrambler_position i = .ok (some (phase (m.at_position p) i)) ∧
        (∀ t, t < m.available_characters.length →
          ∃ j, j < m.available_characters.length ∧
            ((j : Int) + (m.scramblers.getD i []).getD
              ((j + phase (m.at_position p) i) % m.available_characters.length) 0)
                % (m.available_characters.length : Int) = (t : Int) ∧
            (∀ j', j' < m.available_characters.length →
              ((j' : Int) + (m.scramblers.getD i []).getD
                ((j' + phase (m.at_position p) i) % m.available_characters.length) 0)
                  % (m.available_characters.length : Int) = (t : Int) → j' = j) ∧
            (m.at_position p).backward_scan i (t : Int) m.available_characters.length 0
              = .ok (j : Int) ∧
            (m.at_position p).backward_step (m.scramblers_num - i) (t : Int) = .ok (j : Int)) ∧
        (∀ idx, idx < m.available_characters.length →
          ∃ y : Nat, y < m.available_characters.length ∧
            (m.at_position p).forward_step i (idx : Int) = .ok (y : Int) ∧
            (m.at_position p).backward_step (m.scramblers_num - i) (y : Int)
              = .ok (idx : Int)) := by
  obtain ⟨m, hm, hk, _⟩ := new_keyed shuffle hperm k seeds hs startpos avach hN
  refine ⟨m, hm, fun p i hi => ?_⟩
  have hkp : Keyed (m.at_position p) := hk.keyed_at p
  have hi' : i < (m.at_position p).scramblers_num := hi
  have hNp : 0 < (m.at_position p).available_characters.length := hkp.2.1
  refine ⟨calc_of_lt (m.at_position p) hi' hNp, fun t ht => ?_, fun idx hidx => ?_⟩
  · obtain ⟨j, hj, hjt⟩ := @stage_fn_surj (m.at_position p) hkp i hi' t ht
    have hstep := @backward_step_stage (m.at_position p) hkp i hi' j hj
    rw [hjt] at hstep
    refine ⟨j, hj, ?_, fun j' hj' he => ?_, ?_, hstep⟩
    · have := @stage_fn_emod (m.at_position p) hkp i hi' j
      rw [hjt] at this
      exact this.symm
    · have h1 := @stage_fn_emod (m.at_position p) hkp i hi' j'
      have h2 : ((stage_fn (m.at_position p) i j' : Nat) : Int) = (t : Int) := h1.trans he
      have h3 : stage_fn (m.at_position p) i j' = stage_fn (m.at_position p) i j := by
        rw [hjt]; exact_mod_cast h2
      exact @stage_fn_inj (m.at_position p) hkp i hi' j' j hj' hj h3
    · have hj2 : j < m.available_characters.length := hj
      have := @backward_scan_keyed (m.at_position p) hkp i hi' j hj
        m.available_characters.length 0 (Nat.zero_le _) (by omega) (Nat.le_of_eq (Nat.zero_add _))
      rw [hjt] at this
      exact this
  · exact ⟨stage_fn (m.at_position p) i idx, stage_fn_lt (m.at_position p) i idx hNp,
      @forward_step_keyed (m.at_position p) hkp i hi' idx hidx,
      @backward_step_stage (m.at_position p) hkp i hi' idx hidx⟩

theorem backward_inverts_forward_witness :
    ShufflePerm rot_shuffle ∧ ([42, 7] : List Nat) ≠ [] ∧
    SetStringVisitor (.str [65, 66, 67, 68, 69]) ≠ [] ∧
    ∃ m, Enigma.new rot_shuffle 2 [42, 7] 0 (.str [65, 66, 67, 68, 69]) = .ok m ∧
      ∀ (p i : Nat), i < m.scramblers_num →
        (m.at_position p).calc_scrambler_position i = .ok (some (phase (m.at_position p) i)) ∧
        (∀ t, t < m.available_characters.length →
          ∃ j, j < m.available_characters.length ∧
            ((j : Int) + (m.scramblers.getD i []).getD
              ((j + phase (m.at_position p) i) % m.available_characters.length) 0)
                % (m.available_characters.length : Int) = (t : Int) ∧
            (∀ j', j' < m.available_characters.length →
              ((j' : Int) + (m.scramblers.getD i []).getD
                ((j' + phase (m.at_position p) i) % m.available_characters.length) 0)
                  % (m.available_characters.length : Int) = (t : Int) → j' = j) ∧
            (m.at_position p).backward_scan i (t : Int) m.available_characters.length 0
              = .ok (j : Int) ∧
            (m.at_position p).backward_step (m.scramblers_num - i) (t : Int) = .ok (j : Int)) ∧
        (∀ idx, idx < m.available_characters.length →
          ∃ y : Nat, y < m.available_characters.length ∧
            (m.at_position p).forward_step i (idx : Int) = .ok (y : Int) ∧
            (m.at_position p).backward_step (m.scramblers_num - i) (y : Int)
              = .ok (idx : Int)) :=
  ⟨rot_shuffle_perm, by decide, by decide,
   backward_inverts_forward rot_shuffle rot_shuffle_perm 2 [42, 7] (by decide) 0
     (.str [65, 66, 67, 68, 69]) (by decide)⟩

end backward_inverse

/-! ## Table accesses stay in range -/

section in_range

theorem refrector_access_ok {m : Enigma} (h : m.WF) (x : Int) (h0 : 0 ≤ x)
    (h1 : x < (m.available_characters.length : Int)) :
    ∃ r : Int, vec_at m.refrector (toSize x) = .ok r ∧ 0 ≤ r ∧
      r < (m.available_characters.length : Int) := by
  have hcard := h.card_le
  have hsz : toSize x = x.toNat := toSize_of_nonneg h0 (by rw [size_mod_eq]; omega)
  have hidx : toSize x < m.refrector.length := by rw [hsz, h.2.2.1]; omega
  exact ⟨_, vec_at_of_lt hidx, h.2.2.2.1 _ (List.getElem_mem hidx)⟩

theorem backward_step_ok {m : Enigma} (h : m.WF) {i : Nat} (h1i : 1 ≤ i)
    (hi : i ≤ m.scramblers_num) (x : Int) (h0 : 0 ≤ x)
    (h1 : x < (m.available_characters.length : Int)) :
    ∃ y : Int, m.backward_step i x = .ok y ∧ 0 ≤ y ∧
      y < (m.available_characters.length : Int) := by
  have hN : 0 < m.available_characters.length := by omega
  exact backward_scan_ok h (by omega) hN x h0 h1 _ 0 (by omega)

/-- C19. Every table access of the single-symbol transform is in range. On every
constructed machine over an alphabet of size `N ≥ 1` (any seed list, also the empty
one; any stage count; the shuffle returning a permutation) and at every position: the
phase lookup of every stage `i < scramblers_num` has a value below `N`; from a running
index in `[0, N)` every forward stage, the reflector access and every backward stage
(the scan finding a match or not) return without fault an index in `[0, N)`; and for
every symbol of the alphabet the transform returns a symbol of the alphabet. -/
theorem table_accesses_in_range (shuffle : Nat → List Int → List Int)
    (hperm : ShufflePerm shuffle) (k : Nat) (seeds : List Nat) (startpos : Nat)
    (avach : AvaCh) (hN : SetStringVisitor avach ≠ []) :
    ∃ m, Enigma.new shuffle k seeds startpos avach = .ok m ∧
      ∀ (p : Nat),
        (∀ i, i < m.scramblers_num → ∃ ph,
          (m.at_position p).calc_scrambler_position i = .ok (some ph) ∧
          ph < m.available_characters.length) ∧
        (∀ i, i < m.scramblers_num → ∀ x : Int, 0 ≤ x →
          x < (m.available_characters.length : Int) →
          ∃ y : Int, (m.at_position p).forward_step i x = .ok y ∧ 0 ≤ y ∧
            y < (m.available_characters.length : Int)) ∧
        (∀ x : Int, 0 ≤ x → x < (m.available_characters.length : Int) →
          ∃ r : Int, vec_at (m.at_position p).refrector (toSize x) = .ok r ∧ 0 ≤ r ∧
            r < (m.available_characters.length : Int)) ∧
        (∀ i, 1 ≤ i → i ≤ m.scramblers_num → ∀ x : Int, 0 ≤ x →
          x < (m.available_characters.length : Int) →
          ∃ y : Int, (m.at_position p).backward_step i x = .ok y ∧ 0 ≤ y ∧
            y < (m.available_characters.length : Int)) ∧
        (∀ ch, ch ∈ m.available_characters →
          ∃ c, (m.at_position p).call_char ch = .ok (some c, m.at_position p) ∧
            c ∈ m.available_characters) := by
  obtain ⟨m, hm, hwf, hA, _, _⟩ := new_total shuffle hperm k seeds startpos avach hN
  have hpos : 0 < m.available_characters.length := by
    rw [hA]; exact List.length_pos.2 hN
  refine ⟨m, hm, fun p => ?_⟩
  have hwp : (m.at_position p).WF := hwf.wf_at p
  have hposp : 0 < (m.at_position p).available_characters.length := hpos
  refine ⟨fun i hi => ?_, fun i hi x h0 h1 => ?_, fun x h0 h1 => ?_,
    fun i h1i hi x h0 h1 => ?_, fun ch hch => ?_⟩
  · exact ⟨_, @calc_of_lt (m.at_position p) i hi hposp, phase_lt (m.at_position p) i hposp⟩
  · exact @forward_step_ok (m.at_position p) hwp i hi hposp x
  · exact @refrector_access_ok (m.at_position p) hwp x h0 h1
  · exact @backward_step_ok (m.at_position p) hwp i h1i hi x h0 h1
  · exact @call_char_of_mem (m.at_position p) hwp ch hch

theorem table_accesses_in_range_witness :
    ShufflePerm rot_shuffle ∧ SetStringVisitor (.str [65, 66, 67, 68]) ≠ [] ∧
    ∃ m, Enigma.new rot_shuffle 2 [] 0 (.str [65, 66, 67, 68]) = .ok m ∧
      ∀ (p : Nat),
        (∀ i, i < m.scramblers_num → ∃ ph,
          (m.at_position p).calc_scrambler_position i = .ok (some ph) ∧
          ph < m.available_characters.length) ∧
        (∀ i, i < m.scramblers_num → ∀ x : Int, 0 ≤ x →
          x < (m.available_characters.length : Int) →
          ∃ y : Int, (m.at_position p).forward_step i x = .ok y ∧ 0 ≤ y ∧
            y < (m.available_characters.length : Int)) ∧
        (∀ x : Int, 0 ≤ x → x < (m.available_characters.length : Int) →
          ∃ r : Int, vec_at (m.at_position p).refrector (toSize x) = .ok r ∧ 0 ≤ r ∧
            r < (m.available_characters.length : Int)) ∧
        (∀ i, 1 ≤ i → i ≤ m.scramblers_num → ∀ x : Int, 0 ≤ x →
          x < (m.available_characters.length : Int) →
          ∃ y : Int, (m.at_position p).backward_step i x = .ok y ∧ 0 ≤ y ∧
            y < (m.available_characters.length : Int)) ∧
        (∀ ch, ch ∈ m.available_characters →
          ∃ c, (m.at_position p).call_char ch = .ok (some c, m.at_position p) ∧
            c ∈ m.available_characters) :=
  ⟨rot_shuffle_perm, by decide,
   table_accesses_in_range rot_shuffle rot_shuffle_perm 2 [] 0 (.str [65, 66, 67, 68])
     (by decide)⟩

end in_range

/-! ## Fixed points of the transform -/

section fixed_points

/-- On a keyed machine the pass fixes `x` exactly when the reflector fixes the image of
`x` under the forward pass. -/
theorem pass_fixed_iff {m : Enigma} (h : Keyed m) {x : Nat}
    (hx : x < m.available_characters.length) :
    ∃ y, y < m.available_characters.length ∧
      forLoop (fun i ind => m.forward_step i ind) m.scramblers_num 0 (x : Int) = .ok (y : Int) ∧
      (m.pass (x : Int) = .ok (x : Int) ↔ m.refrector[y]? = some (y : Int)) := by
  have hle := h.1.card_le
  obtain ⟨y, hy, hfy, hby⟩ := forward_backward h m.scramblers_num (Nat.le_refl _) x hx
  obtain ⟨r, hr, hyr, hry⟩ := h.2.2.2 y hy
  obtain ⟨z, hz, hbz, hfz⟩ := backward_forward h m.scramblers_num (Nat.le_refl _) r hr
  have e : m.scramblers_num - m.scramblers_num + 1 = 1 := by omega
  rw [e] at hby hbz
  have sy : toSize (y : Int) = y := toSize_natCast (by rw [size_mod_eq]; omega)
  have hpass : m.pass (x : Int) = .ok (z : Int) := by
    unfold Enigma.pass
    simp only [hfy, ok_bind, sy, vec_at_of_getElem? hyr, hbz]
  refine ⟨y, hy, hfy, ?_⟩
  rw [hpass]
  constructor
  · intro hzx
    have hzx' : z = x := by
      have := Except.ok.inj hzx
      exact_mod_cast this
    rw [hzx', hfy] at hfz
    have hyr' : y = r := by
      have := Except.ok.inj hfz
      exact_mod_cast this
    rw [hyr] 
    rw [← hyr']
  · intro hfix
    rw [hyr] at hfix
    have hry' : r = y := by
      have := Option.some.inj hfix
      exact_mod_cast this
    rw [hry', hby] at hbz
    exact hbz.symm

theorem forward_onto {m : Enigma} (h : Keyed m) {y : Nat}
    (hy : y < m.available_characters.length) :
    ∃ x, x < m.available_characters.length ∧
      forLoop (fun i ind => m.forward_step i ind) m.scramblers_num 0 (x : Int)
        = .ok (y : Int) := by
  obtain ⟨z, hz, _, hfz⟩ := backward_forward h m.scramblers_num (Nat.le_refl _) y hy
  exact ⟨z, hz, hfz⟩

theorem forward_one_to_one {m : Enigma} (h : Keyed m) {x x' y : Nat}
    (hx : x < m.available_characters.length) (hx' : x' < m.available_characters.length)
    (h1 : forLoop (fun i ind => m.forward_step i ind) m.scramblers_num 0 (x : Int)
      = .ok (y : Int))
    (h2 : forLoop (fun i ind => m.forward_step i ind) m.scramblers_num 0 (x' : Int)
      = .ok (y : Int)) : x = x' := by
  obtain ⟨y1, _, hf1, hb1⟩ := forward_backward h m.scramblers_num (Nat.le_refl _) x hx
  obtain ⟨y2, _, hf2, hb2⟩ := forward_backward h m.scramblers_num (Nat.le_refl _) x' hx'
  rw [h1] at hf1
  rw [h2] at hf2
  have e1 : y = y1 := by
    have := Except.ok.inj hf1
    exact_mod_cast this
  have e2 : y = y2 := by
    have := Except.ok.inj hf2
    exact_mod_cast this
  rw [← e1] at hb1
  rw [← e2, hb1] at hb2
  have := Except.ok.inj hb2
  exact_mod_cast this

/-- The symbol the transform returns for the symbol of index `x`, and when it is that
same symbol. -/
theorem call_char_fixed_iff {m : Enigma} (h : Keyed m) {x : Nat}
    (hx : x < m.available_characters.length) :
    ∃ c, m.call_char (m.available_characters[x]) = .ok (some c, m) ∧
      (c = m.available_characters[x] ↔ m.pass (x : Int) = .ok (x : Int)) := by
  obtain ⟨z, hz, hp, _⟩ := pass_involution h hx
  refine ⟨_, call_char_eq_of_pass hx hz h.1.nodup hp, ?_⟩
  rw [hp]
  constructor
  · intro hc
    have hzx : z = x := (h.1.nodup.getElem_inj_iff).1 hc
    rw [hzx]
  · intro hzx
    have hzx' : z = x := by
      have := Except.ok.inj hzx
      exact_mod_cast this
    subst hzx'
    rfl

/-- With a reflector free of fixed points, no symbol is transformed into itself. -/
theorem keyed_no_fixed {m : Enigma} (h : Keyed m)
    (hno : ∀ j, j < m.available_characters.length → m.refrector[j]? ≠ some (j : Int))
    {ch : CChar} (hch : ch ∈ m.available_characters) :
    ∃ c, m.call_char ch = .ok (some c, m) ∧ c ≠ ch := by
  have hidx : m.available_characters.indexOf ch < m.available_characters.length :=
    List.indexOf_lt_length.2 hch
  obtain ⟨c, hc, hiff⟩ := call_char_fixed_iff h hidx
  obtain ⟨y, hy, _, hpf⟩ := pass_fixed_iff h hidx
  rw [List.getElem_indexOf hidx] at hc hiff
  exact ⟨c, hc, fun e => hno y hy (hpf.1 (hiff.1 e))⟩

/-- With a reflector whose only fixed point is `y0`, exactly one symbol is transformed
into itself. -/
theorem keyed_one_fixed {m : Enigma} (h : Keyed m) {y0 : Nat}
    (hy0 : y0 < m.available_characters.length)
    (hfix : ∀ j, j < m.available_characters.length →
      (m.refrector[j]? = some (j : Int) ↔ j = y0)) :
    ∃ ch0, ch0 ∈ m.available_characters ∧ m.call_char ch0 = .ok (some ch0, m) ∧
      ∀ ch, ch ∈ m.available_characters → m.call_char ch = .ok (some ch, m) → ch = ch0 := by
  obtain ⟨x0, hx0, hf0⟩ := forward_onto h hy0
  obtain ⟨y, hy, hfy, hpf⟩ := pass_fixed_iff h hx0
  have hyy : y = y0 := by
    rw [hf0] at hfy
    have := Except.ok.inj hfy
    exact_mod_cast this.symm
  subst hyy
  have hp0 : m.pass (x0 : Int) = .ok (x0 : Int) := hpf.2 ((hfix y hy).2 rfl)
  obtain ⟨c0, hc0, hiff0⟩ := call_char_fixed_iff h hx0
  have hc0' : c0 = m.available_characters[x0] := hiff0.2 hp0
  rw [hc0'] at hc0
  refine ⟨_, List.getElem_mem hx0, hc0, fun ch hch hself => ?_⟩
  have hidx : m.available_characters.indexOf ch < m.available_characters.length :=
    List.indexOf_lt_length.2 hch
  obtain ⟨c, hc, hiff⟩ := call_char_fixed_iff h hidx
  obtain ⟨y', hy', hfy', hpf'⟩ := pass_fixed_iff h hidx
  rw [List.getElem_indexOf hidx] at hc hiff
  rw [hself] at hc
  have hcc : c = ch := by
    have := Except.ok.inj hc
    exact (Option.some.inj (congrArg Prod.fst this)).symm
  have hy'y : y' = y := (hfix y' hy').1 (hpf'.1 (hiff.1 hcc))
  rw [hy'y] at hfy'
  have hxx := forward_one_to_one h hidx hx0 hfy' hf0
  have := List.getElem_indexOf hidx
  rw [← this]
  congr 1

/-- The machine built from a non-empty seed list is keyed, and its reflector fixes an
index exactly when the alphabet size is odd and the index is the last entry of the
shuffled copy. -/
theorem new_keyed_fixed (shuffle : Nat → List Int → List Int) (hperm : ShufflePerm shuffle)
    (k : Nat) (seeds : List Nat) (hs : seeds ≠ []) (startpos : Nat) (avach : AvaCh)
    (hN : SetStringVisitor avach ≠ []) :
    ∃ m, Enigma.new shuffle k seeds startpos avach = .ok m ∧ Keyed m ∧
      m.available_characters = SetStringVisitor avach ∧
      ∀ j, j < (SetStringVisitor avach).length →
        (m.refrector[j]? = some (j : Int) ↔
          ((SetStringVisitor avach).length % 2 = 1 ∧
            (seeded_ref_copy shuffle k seeds (SetStringVisitor avach).length).getD
              ((SetStringVisitor avach).length - 1) 0 = (j : Int))) := by
  have hle := visitor_length_le avach
  obtain ⟨m, hm, hk, hA, _⟩ := new_keyed shuffle hperm k seeds hs startpos avach hN
  obtain ⟨refl, hrefl, hnew⟩ := new_seeded shuffle hperm k seeds hs startpos avach hN
  have hmr : m.refrector = refl := by
    have := Except.ok.inj (hm.symm.trans hnew)
    rw [this]
  have hc : (seeded_ref_copy shuffle k seeds (SetStringVisitor avach).length).Perm
      (idl (SetStringVisitor avach).length) := hperm _ _
  obtain ⟨r', hr', _, hspec⟩ := pair_refrector_spec _ _ hc hle
  rw [hrefl] at hr'
  cases hr'
  refine ⟨m, hm, hk, hA, fun j hj => ?_⟩
  obtain ⟨j', _, h1, _, h3⟩ := paired_involution _ refl _ hc hspec j hj
  rw [hmr, h1, ← h3]
  constructor
  · intro e
    have := Option.some.inj e
    exact_mod_cast this
  · intro e
    rw [e]

/-- C18. No symbol encrypts to itself on an even alphabet. On the machine built from a
non-empty seed list (the shuffle returning a permutation), at every position `p`: when
the alphabet size is even the single-symbol transform sends every symbol of the
alphabet to a different symbol; when it is odd exactly one symbol of the alphabet is
sent to itself. -/
theorem self_encryption (shuffle : Nat → List Int → List Int) (hperm : ShufflePerm shuffle)
    (k : Nat) (seeds : List Nat) (hs : seeds ≠ []) (startpos : Nat) (avach : AvaCh)
    (hN : SetStringVisitor avach ≠ []) :
    ∃ m, Enigma.new shuffle k seeds startpos avach = .ok m ∧
      ∀ (p : Nat),
        (m.available_characters.length % 2 = 0 →
          ∀ ch, ch ∈ m.available_characters →
            ∃ c, (m.at_position p).call_char ch = .ok (some c, m.at_position p) ∧ c ≠ ch) ∧
        (m.available_characters.length % 2 = 1 →
          ∃ ch0, ch0 ∈ m.available_characters ∧
            (m.at_position p).call_char ch0 = .ok (some ch0, m.at_position p) ∧
            ∀ ch, ch ∈ m.available_characters →
              (m.at_position p).call_char ch = .ok (some ch, m.at_position p) → ch = ch0) := by
  obtain ⟨m, hm, hk, hA, hfix⟩ := new_keyed_fixed shuffle hperm k seeds hs startpos avach hN
  have hlen : m.available_characters.length = (SetStringVisitor avach).length := by rw [hA]
  have hc : (seeded_ref_copy shuffle k seeds (SetStringVisitor avach).length).Perm
      (idl (SetStringVisitor avach).length) := hperm _ _
  have hpos : 0 < (SetStringVisitor avach).length := List.length_pos.2 hN
  refine ⟨m, hm, fun p => ⟨fun heven ch hch => ?_, fun hodd => ?_⟩⟩
  · refine @keyed_no_fixed (m.at_position p) (hk.keyed_at p) (fun j hj hj' => ?_) ch hch
    have hj2 : j < (SetStringVisitor avach).length := by rw [← hlen]; exact hj
    have := ((hfix j hj2).1 hj').1
    omega
  · have hlast := perm_getD_mem hc (show (SetStringVisitor avach).length - 1
        < (SetStringVisitor avach).length by omega)
    have hy0 : ((seeded_ref_copy shuffle k seeds (SetStringVisitor avach).length).getD
        ((SetStringVisitor avach).length - 1) 0).toNat
          < (m.at_position p).available_characters.length := by
      show _ < m.available_characters.length
      omega
    refine @keyed_one_fixed (m.at_position p) (hk.keyed_at p) _ hy0 (fun j hj => ?_)
    have hj2 : j < (SetStringVisitor avach).length := by rw [← hlen]; exact hj
    show m.refrector[j]? = some (j : Int) ↔ _
    rw [hfix j hj2]
    constructor
    · rintro ⟨_, e⟩
      omega
    · intro e
      exact ⟨by omega, by omega⟩

theorem self_encryption_witness :
    ShufflePerm rot_shuffle ∧ ([42, 7] : List Nat) ≠ [] ∧
    SetStringVisitor (.str [65, 66, 67, 68, 69]) ≠ [] ∧
    (Enigma.new rot_shuffle 2 [42, 7] 0 (.str [65, 66, 67, 68, 69])
      >>= fun m => Prod.fst <$> m.call_char 67) = .ok (some 67) ∧
    (Prod.fst <$> sample_machine.call_char 65) = .ok (some 66) ∧
    ∃ m, Enigma.new rot_shuffle 2 [42, 7] 0 (.str [65, 66, 67, 68, 69]) = .ok m ∧
      ∀ (p : Nat),
        (m.available_characters.length % 2 = 0 →
          ∀ ch, ch ∈ m.available_characters →
            ∃ c, (m.at_position p).call_char ch = .ok (some c, m.at_position p) ∧ c ≠ ch) ∧
        (m.available_characters.length % 2 = 1 →
          ∃ ch0, ch0 ∈ m.available_characters ∧
            (m.at_position p).call_char ch0 = .ok (some ch0, m.at_position p) ∧
            ∀ ch, ch ∈ m.available_characters →
              (m.at_position p).call_char ch = .ok (some ch, m.at_position p) → ch = ch0) :=
  ⟨rot_shuffle_perm, by decide, by decide, by decide, by decide,
   self_encryption rot_shuffle rot_shuffle_perm 2 [42, 7] (by decide) 0
     (.str [65, 66, 67, 68, 69]) (by decide)⟩

end fixed_points

end dorayaki
